import Mathlib

/-!
# Verification of the Configa-DZ configuration-language translator

Shallow embedding of `src/main15.py`: a lexer (`tokenize`, modelling the
`TOKEN_RE` alternation scanned left to right), a recursive-descent parser
over the token list with a constant table, and the `translate_text` facade.
Strings are modelled as `List Char`; the Python regex character classes are
modelled over their ASCII ranges.  Each `raise SyntaxError` site of the
source is modelled by a distinct constructor of `Err` carrying the data
interpolated into the Python message.
-/

namespace CDZ

/-- The `m.lastgroup` values of `TOKEN_RE`, plus the synthetic `EOF` kind
appended by `tokenize`. -/
inductive TokKind where
  | WS | DICT_START | LBRACE | RBRACE | LPAREN | RPAREN
  | COMMA | EQUAL | SEMICOLON | ARRAY | DEF
  | CONSTREF | STRING | NUMBER | IDENT | EOF
deriving DecidableEq, Repr

/-- The `Token` dataclass: a kind and the raw matched text. -/
structure Token where
  type : TokKind
  value : List Char
deriving DecidableEq, Repr

/-- ASCII core of the Python regex class `\s`. -/
def isPySpace (c : Char) : Bool :=
  c = ' ' || c = '\t' || c = '\n' || c = '\r' || c = '\x0b' || c = '\x0c'

/-- The regex class `[A-Za-z0-9_]` (`\w`, ASCII). -/
def isWordChar (c : Char) : Bool :=
  c.isAlpha || c.isDigit || c = '_'

/-- The regex class `[A-Za-z_]`. -/
def isIdentStart (c : Char) : Bool :=
  c.isAlpha || c = '_'

/-- The regex class `[01]`. -/
def isBit (c : Char) : Bool :=
  c = '0' || c = '1'

/-- Characters allowed inside a string literal: the class `[^\]]`. -/
def isStrBody (c : Char) : Bool :=
  if c = ']' then false else true

def kwArray : List Char := ['a', 'r', 'r', 'a', 'y']

def kwDef : List Char := ['d', 'e', 'f']

/-- A `\b` word boundary to the left of the current position, given the
character immediately before it (`none` at offset 0). -/
def boundaryOk : Option Char → Bool
  | none => true
  | some c => !(isWordChar c)

/-- A `\b` word boundary to the right of a keyword, given the rest of the
input. -/
def afterOk : List Char → Bool
  | [] => true
  | c :: _ => !(isWordChar c)

/-- Alternative `(?P<CONSTREF>\$[A-Za-z_][A-Za-z0-9_]*\$)`. -/
def matchConstref : List Char → Option (TokKind × List Char × List Char)
  | c :: d :: rest =>
    if c = '$' && isIdentStart d then
      match rest.dropWhile isWordChar with
      | e :: rest2 =>
        if e = '$' then
          some (.CONSTREF, '$' :: d :: (rest.takeWhile isWordChar ++ ['$']), rest2)
        else none
      | [] => none
    else none
  | _ => none

/-- Alternative `(?P<STRING>\[\[[^\]]*\]\])`. -/
def matchString : List Char → Option (TokKind × List Char × List Char)
  | c :: d :: rest =>
    if c = '[' && d = '[' then
      match rest.dropWhile isStrBody with
      | e :: f :: rest2 =>
        if e = ']' && f = ']' then
          some (.STRING, '[' :: '[' :: (rest.takeWhile isStrBody ++ [']', ']']), rest2)
        else none
      | _ => none
    else none
  | _ => none

/-- Alternative `(?P<NUMBER>0[bB][01]+)`. -/
def matchNumber : List Char → Option (TokKind × List Char × List Char)
  | c :: b :: rest =>
    if c = '0' && (b = 'b' || b = 'B') then
      match rest.takeWhile isBit with
      | [] => none
      | ds => some (.NUMBER, '0' :: b :: ds, rest.dropWhile isBit)
    else none
  | _ => none

/-- Alternative `(?P<IDENT>[A-Za-z_][A-Za-z0-9_]*)`. -/
def matchIdent : List Char → Option (TokKind × List Char × List Char)
  | [] => none
  | c :: rest =>
    if isIdentStart c then
      some (.IDENT, c :: rest.takeWhile isWordChar, rest.dropWhile isWordChar)
    else none

/-- Alternative `(?P<WS>\s+)`, matched greedily. -/
def matchWS (cs : List Char) :
    Option (TokKind × List Char × List Char) :=
  if cs.takeWhile isPySpace ≠ [] then
    some (.WS, cs.takeWhile isPySpace, cs.dropWhile isPySpace)
  else none

/-- A literal alternative such as `@\{` or `;`. -/
def matchLit (k : TokKind) (lit : List Char) (cs : List Char) :
    Option (TokKind × List Char × List Char) :=
  if lit.isPrefixOf cs then some (k, lit, cs.drop lit.length) else none

/-- A keyword alternative `\barray\b` / `\bdef\b`, with both `\b`
assertions; `prev` is the character before the current position. -/
def matchKw (k : TokKind) (kw : List Char) (prev : Option Char)
    (cs : List Char) : Option (TokKind × List Char × List Char) :=
  if boundaryOk prev && kw.isPrefixOf cs && afterOk (cs.drop kw.length) then
    some (k, kw, cs.drop kw.length)
  else none

/-- First-alternative-wins combination, as in regex alternation. -/
def tryOr (a b : Option (TokKind × List Char × List Char)) :
    Option (TokKind × List Char × List Char) :=
  match a with
  | some r => some r
  | none => b

/-- One match of `TOKEN_RE` at the current position: the alternatives are
tried in the order they appear in the pattern, and each alternative is
matched greedily, exactly as the Python regex behaves on this pattern.
`prev` is the character just before the current position, used for the
`\b` assertions around `array` and `def`.  Returns the kind, the matched
text, and the remaining input; `none` models "no rule matches here". -/
def tokenMatch (prev : Option Char) (cs : List Char) :
    Option (TokKind × List Char × List Char) :=
  tryOr (matchWS cs) <|
  tryOr (matchLit .DICT_START ['@', '{'] cs) <|
  tryOr (matchLit .LBRACE ['{'] cs) <|
  tryOr (matchLit .RBRACE ['}'] cs) <|
  tryOr (matchLit .LPAREN ['('] cs) <|
  tryOr (matchLit .RPAREN [')'] cs) <|
  tryOr (matchLit .COMMA [','] cs) <|
  tryOr (matchLit .EQUAL ['='] cs) <|
  tryOr (matchLit .SEMICOLON [';'] cs) <|
  tryOr (matchKw .ARRAY kwArray prev cs) <|
  tryOr (matchKw .DEF kwDef prev cs) <|
  tryOr (matchConstref cs) <|
  tryOr (matchString cs) <|
  tryOr (matchNumber cs) <|
  matchIdent cs

/-- The error taxonomy: one constructor per `raise` site of the source
(plus `oob`, modelling an out-of-range Python list index, and `fuel`,
the exhaustion marker of the fuel-indexed parser functions). -/
inductive Err where
  /-- `tokenize`, line 41: unexpected character at an offset. -/
  | lex (c : Char) (off : Nat)
  /-- A list index out of range (`IndexError`). -/
  | oob
  /-- `eat`, line 68: expected one kind, found another token. -/
  | expected (e : TokKind) (found : Token)
  /-- `parse_const_def`, line 91: a constant name must follow `def`. -/
  | constName
  /-- `parse_value`, line 114: unknown constant name. -/
  | unknownConst (nm : List Char)
  /-- `parse_value`, line 123: token that cannot start a value. -/
  | unexpectedValue (t : Token)
  /-- `parse_program`, line 84: trailing input after the root value. -/
  | trailing (t : Token)
  /-- `int(s, 2)` raising `ValueError`. -/
  | valueError (s : List Char)
  /-- Fuel exhaustion of the embedded parser (no source counterpart). -/
  | fuel
deriving DecidableEq, Repr

/-- `cs.takeWhile p ++ cs.dropWhile p = cs`. -/
theorem twdw (p : Char → Bool) (cs : List Char) :
    cs.takeWhile p ++ cs.dropWhile p = cs := by
  induction cs with
  | nil => rfl
  | cons c rest ih =>
    by_cases h : p c = true
    · simp [List.takeWhile, List.dropWhile, h, ih]
    · simp [List.takeWhile, List.dropWhile, h]

/-- A verified `isPrefixOf` splits the list. -/
theorem isPrefixOf_eq {p cs : List Char} (h : p.isPrefixOf cs = true) :
    cs = p ++ cs.drop p.length := by
  obtain ⟨t, rfl⟩ := List.isPrefixOf_iff_prefix.mp h
  simp

theorem matchConstref_spec {cs m r : List Char} {k : TokKind}
    (h : matchConstref cs = some (k, m, r)) :
    cs = m ++ r ∧ m ≠ [] ∧ k = .CONSTREF := by
  match cs with
  | [] => simp [matchConstref] at h
  | [c] => simp [matchConstref] at h
  | c :: d :: rest =>
    simp only [matchConstref] at h
    split at h
    · rename_i hc
      simp only [Bool.and_eq_true, decide_eq_true_eq] at hc
      obtain ⟨rfl, -⟩ := hc
      split at h
      · rename_i e rest2 hdw
        split at h
        · rename_i he
          subst he
          simp only [Option.some.injEq, Prod.mk.injEq] at h
          obtain ⟨rfl, rfl, rfl⟩ := h
          refine ⟨?_, by simp, rfl⟩
          have hr : rest = rest.takeWhile isWordChar ++ ('$' :: rest2) := by
            conv_lhs => rw [← twdw isWordChar rest]
            rw [hdw]
          simp only [List.cons_append, List.append_assoc, List.singleton_append,
            List.nil_append]
          rw [← hr]
        · cases h
      · cases h
    · cases h

theorem matchString_spec {cs m r : List Char} {k : TokKind}
    (h : matchString cs = some (k, m, r)) :
    cs = m ++ r ∧ m ≠ [] ∧ k = .STRING := by
  match cs with
  | [] => simp [matchString] at h
  | [c] => simp [matchString] at h
  | c :: d :: rest =>
    simp only [matchString] at h
    split at h
    · rename_i hc
      simp only [Bool.and_eq_true, decide_eq_true_eq] at hc
      obtain ⟨rfl, rfl⟩ := hc
      split at h
      · rename_i e f rest2 hdw
        split at h
        · rename_i hef
          simp only [Bool.and_eq_true, decide_eq_true_eq] at hef
          obtain ⟨rfl, rfl⟩ := hef
          simp only [Option.some.injEq, Prod.mk.injEq] at h
          obtain ⟨rfl, rfl, rfl⟩ := h
          refine ⟨?_, by simp, rfl⟩
          have hr : rest = rest.takeWhile isStrBody ++ (']' :: ']' :: rest2) := by
            conv_lhs => rw [← twdw isStrBody rest]
            rw [hdw]
          simp only [List.cons_append, List.append_assoc, List.singleton_append,
            List.nil_append]
          rw [← hr]
        · cases h
      · cases h
    · cases h

theorem matchNumber_spec {cs m r : List Char} {k : TokKind}
    (h : matchNumber cs = some (k, m, r)) :
    cs = m ++ r ∧ m ≠ [] ∧ k = .NUMBER := by
  match cs with
  | [] => simp [matchNumber] at h
  | [c] => simp [matchNumber] at h
  | c :: b :: rest =>
    simp only [matchNumber] at h
    split at h
    · rename_i hc
      simp only [Bool.and_eq_true, decide_eq_true_eq] at hc
      obtain ⟨rfl, -⟩ := hc
      split at h
      · cases h
      · rename_i ds hne
        simp only [Option.some.injEq, Prod.mk.injEq] at h
        obtain ⟨rfl, rfl, rfl⟩ := h
        refine ⟨?_, by simp, rfl⟩
        have hr : rest = rest.takeWhile isBit ++ rest.dropWhile isBit :=
          (twdw isBit rest).symm
        simp only [List.cons_append]
        rw [← hr]
    · cases h

theorem matchIdent_spec {cs m r : List Char} {k : TokKind}
    (h : matchIdent cs = some (k, m, r)) :
    cs = m ++ r ∧ m ≠ [] ∧ k = .IDENT := by
  match cs with
  | [] => simp [matchIdent] at h
  | c :: rest =>
    simp only [matchIdent] at h
    split at h
    · simp only [Option.some.injEq, Prod.mk.injEq] at h
      obtain ⟨rfl, rfl, rfl⟩ := h
      refine ⟨?_, by simp, rfl⟩
      simp only [List.cons_append]
      rw [twdw]
    · cases h

theorem tryOr_some {a b : Option (TokKind × List Char × List Char)}
    {r : TokKind × List Char × List Char} (h : tryOr a b = some r) :
    a = some r ∨ (a = none ∧ b = some r) := by
  cases ha : a with
  | some x => left; rw [ha] at h; unfold tryOr at h; exact h
  | none => right; rw [ha] at h; unfold tryOr at h; exact ⟨rfl, h⟩

theorem matchWS_spec {cs m r : List Char} {k : TokKind}
    (h : matchWS cs = some (k, m, r)) :
    cs = m ++ r ∧ m ≠ [] ∧ k = .WS := by
  unfold matchWS at h
  split at h
  · rename_i hws
    simp only [Option.some.injEq, Prod.mk.injEq] at h
    obtain ⟨rfl, rfl, rfl⟩ := h
    exact ⟨(twdw _ _).symm, hws, rfl⟩
  · cases h

theorem matchLit_spec {lit cs m r : List Char} {k0 k : TokKind}
    (h : matchLit k0 lit cs = some (k, m, r)) (hlit : lit ≠ []) :
    cs = m ++ r ∧ m ≠ [] ∧ k = k0 := by
  unfold matchLit at h
  split at h
  · rename_i hp
    simp only [Option.some.injEq, Prod.mk.injEq] at h
    obtain ⟨rfl, rfl, rfl⟩ := h
    exact ⟨isPrefixOf_eq hp, hlit, rfl⟩
  · cases h

theorem matchKw_spec {kw cs m r : List Char} {prev : Option Char} {k0 k : TokKind}
    (h : matchKw k0 kw prev cs = some (k, m, r)) (hkw : kw ≠ []) :
    cs = m ++ r ∧ m ≠ [] ∧ k = k0 := by
  unfold matchKw at h
  split at h
  · rename_i hp
    simp only [Bool.and_eq_true] at hp
    obtain ⟨⟨-, hpre⟩, -⟩ := hp
    simp only [Option.some.injEq, Prod.mk.injEq] at h
    obtain ⟨rfl, rfl, rfl⟩ := h
    exact ⟨isPrefixOf_eq hpre, hkw, rfl⟩
  · cases h

/-- A successful `tokenMatch` decomposes the input: the matched text is a
nonempty prefix, and the kind is a real rule (never the synthetic `EOF`). -/
theorem tokenMatch_spec {prev : Option Char} {cs m r : List Char} {k : TokKind}
    (h : tokenMatch prev cs = some (k, m, r)) :
    cs = m ++ r ∧ m ≠ [] ∧ k ≠ .EOF := by
  have out : ∀ {k0 : TokKind}, cs = m ++ r → m ≠ [] → k = k0 → k0 ≠ .EOF →
      cs = m ++ r ∧ m ≠ [] ∧ k ≠ .EOF := by
    intro k0 h1 h2 h3 h4
    exact ⟨h1, h2, by rw [h3]; exact h4⟩
  unfold tokenMatch at h
  rcases tryOr_some h with hm | ⟨-, h⟩
  · obtain ⟨h1, h2, h3⟩ := matchWS_spec hm
    exact out h1 h2 h3 (by intro hk; cases hk)
  rcases tryOr_some h with hm | ⟨-, h⟩
  · obtain ⟨h1, h2, h3⟩ := matchLit_spec hm (by simp)
    exact out h1 h2 h3 (by intro hk; cases hk)
  rcases tryOr_some h with hm | ⟨-, h⟩
  · obtain ⟨h1, h2, h3⟩ := matchLit_spec hm (by simp)
    exact out h1 h2 h3 (by intro hk; cases hk)
  rcases tryOr_some h with hm | ⟨-, h⟩
  · obtain ⟨h1, h2, h3⟩ := matchLit_spec hm (by simp)
    exact out h1 h2 h3 (by intro hk; cases hk)
  rcases tryOr_some h with hm | ⟨-, h⟩
  · obtain ⟨h1, h2, h3⟩ := matchLit_spec hm (by simp)
    exact out h1 h2 h3 (by intro hk; cases hk)
  rcases tryOr_some h with hm | ⟨-, h⟩
  · obtain ⟨h1, h2, h3⟩ := matchLit_spec hm (by simp)
    exact out h1 h2 h3 (by intro hk; cases hk)
  rcases tryOr_some h with hm | ⟨-, h⟩
  · obtain ⟨h1, h2, h3⟩ := matchLit_spec hm (by simp)
    exact out h1 h2 h3 (by intro hk; cases hk)
  rcases tryOr_some h with hm | ⟨-, h⟩
  · obtain ⟨h1, h2, h3⟩ := matchLit_spec hm (by simp)
    exact out h1 h2 h3 (by intro hk; cases hk)
  rcases tryOr_some h with hm | ⟨-, h⟩
  · obtain ⟨h1, h2, h3⟩ := matchLit_spec hm (by simp)
    exact out h1 h2 h3 (by intro hk; cases hk)
  rcases tryOr_some h with hm | ⟨-, h⟩
  · obtain ⟨h1, h2, h3⟩ := matchKw_spec hm (by simp [kwArray])
    exact out h1 h2 h3 (by intro hk; cases hk)
  rcases tryOr_some h with hm | ⟨-, h⟩
  · obtain ⟨h1, h2, h3⟩ := matchKw_spec hm (by simp [kwDef])
    exact out h1 h2 h3 (by intro hk; cases hk)
  rcases tryOr_some h with hm | ⟨-, h⟩
  · obtain ⟨h1, h2, h3⟩ := matchConstref_spec hm
    exact out h1 h2 h3 (by intro hk; cases hk)
  rcases tryOr_some h with hm | ⟨-, h⟩
  · obtain ⟨h1, h2, h3⟩ := matchString_spec hm
    exact out h1 h2 h3 (by intro hk; cases hk)
  rcases tryOr_some h with hm | ⟨-, h⟩
  · obtain ⟨h1, h2, h3⟩ := matchNumber_spec hm
    exact out h1 h2 h3 (by intro hk; cases hk)
  obtain ⟨h1, h2, h3⟩ := matchIdent_spec h
  exact out h1 h2 h3 (by intro hk; cases hk)

/-- The scanning loop of `tokenize` (lines 38-47): repeatedly match at the
current position, discard whitespace matches, fail on an unmatched
character with its offset.  `prev` is the character just before the
current position and `off` the absolute offset of the current position.
The `fuel` argument only forces structural recursion: every match consumes
at least one character (`tokenMatch_spec`), so fuel `cs.length` always
suffices, and `tokenize` below supplies it. -/
def tokenizeAux : Nat → Option Char → List Char → Nat → Except Err (List Token)
  | _, _, [], _ => .ok []
  | 0, _, _ :: _, _ => .error .fuel
  | fuel + 1, prev, c :: rest0, off =>
    match tokenMatch prev (c :: rest0) with
    | none => .error (.lex c off)
    | some (k, m, r) =>
      match tokenizeAux fuel m.getLast? r (off + m.length) with
      | .error e => .error e
      | .ok ts => if k = .WS then .ok ts else .ok (⟨k, m⟩ :: ts)

/-- The EOF token appended at line 48. -/
def eofToken : Token := ⟨.EOF, []⟩

/-- `tokenize` (lines 34-49) over a character list. -/
def tokenize (cs : List Char) : Except Err (List Token) :=
  match tokenizeAux cs.length none cs 0 with
  | .error e => .error e
  | .ok ts => .ok (ts ++ [eofToken])

/-- `tokenize` applied to a `String`. -/
def tokenizeStr (s : String) : Except Err (List Token) :=
  tokenize s.toList

/-- The value tree produced by the parser: Python ints, strs, lists and
(insertion-ordered) dicts. -/
inductive Value where
  | int (n : Nat)
  | str (s : List Char)
  | arr (items : List Value)
  | dict (entries : List (List Char × Value))

/-- Python dict assignment `d[k] = v`: update the value at the first
occurrence of the key, keeping its position, else append at the end. -/
def insertPy (m : List (List Char × Value)) (k : List Char) (v : Value) :
    List (List Char × Value) :=
  match m with
  | [] => [(k, v)]
  | (k', v') :: rest =>
    if k' = k then (k', v) :: rest else (k', v') :: insertPy rest k v

/-- Python dict lookup `d[k]` / membership `k in d` (first match). -/
def assocLookup (k : List Char) : List (List Char × Value) → Option Value
  | [] => none
  | (k', v) :: rest => if k' = k then some v else assocLookup k rest

/-- One step of `int(s, 2)`: `acc` is the value of the digits read so
far; a character that is not a binary digit raises `ValueError`. -/
def int2core (acc : Nat) : List Char → Option Nat
  | [] => some acc
  | c :: rest =>
    if c = '0' then int2core (2 * acc) rest
    else if c = '1' then int2core (2 * acc + 1) rest
    else none

/-- `int(s, 2)` on the digit substring: empty input is a `ValueError`. -/
def int2 (cs : List Char) : Option Nat :=
  match cs with
  | [] => none
  | _ => int2core 0 cs

/-- `parse_binary` (lines 52-53): `int(s[2:], 2)`. -/
def parse_binary (s : List Char) : Option Nat :=
  int2 (s.drop 2)

/-- The parser state: the token list, the cursor (`self.pos`) and the
constant table (`self.consts`).  `Parser.__init__` builds
`⟨tokens, 0, []⟩`. -/
structure PState where
  tokens : List Token
  pos : Nat
  consts : List (List Char × Value)

/-- `Parser.__init__` (lines 57-60): fresh cursor and constant table. -/
def initState (tokens : List Token) : PState :=
  ⟨tokens, 0, []⟩

/-- `self.current` (lines 62-64): `self.tokens[self.pos]`; `none` models
an `IndexError`. -/
def currentTok (s : PState) : Option Token :=
  s.tokens.get? s.pos

/-- `eat` (lines 66-71): advance only when the current token has the
expected kind, otherwise fail naming expected and found. -/
def eat (e : TokKind) (s : PState) : Except Err PState :=
  match s.tokens.get? s.pos with
  | none => .error .oob
  | some t =>
    if t.type = e then .ok { s with pos := s.pos + 1 }
    else .error (.expected e t)

/-- `peek` (lines 73-77): `tokens[pos+offset]`, clamped to `tokens[-1]`
when out of range; `none` models `tokens[-1]` on an empty list. -/
def peek (s : PState) (offset : Nat) : Option Token :=
  if s.pos + offset < s.tokens.length then s.tokens.get? (s.pos + offset)
  else s.tokens.getLast?

/-- Lines 83-85 of `parse_program`: after the root value, the current
token must be `EOF`, otherwise the trailing-input error reports it. -/
def endCheck (v : Value) (s : PState) : Except Err (Value × PState) :=
  match s.tokens.get? s.pos with
  | none => .error .oob
  | some t => if t.type = .EOF then .ok (v, s) else .error (.trailing t)

mutual

/-- `parse_value` (lines 99-123), fuel-indexed.  Dispatches on the kind of
the current token; `tok` is read before `eat`, exactly as in the source. -/
def parse_value : Nat → PState → Except Err (Value × PState)
  | 0, _ => .error .fuel
  | f + 1, s =>
    match s.tokens.get? s.pos with
    | none => .error .oob
    | some tok =>
      match tok.type with
      | .NUMBER =>
        match eat .NUMBER s with
        | .error e => .error e
        | .ok s1 =>
          match parse_binary tok.value with
          | some n => .ok (.int n, s1)
          | none => .error (.valueError tok.value)
      | .STRING =>
        match eat .STRING s with
        | .error e => .error e
        | .ok s1 => .ok (.str ((tok.value.drop 2).dropLast.dropLast), s1)
      | .CONSTREF =>
        match eat .CONSTREF s with
        | .error e => .error e
        | .ok s1 =>
          match assocLookup ((tok.value.drop 1).dropLast) s1.consts with
          | some v => .ok (v, s1)
          | none => .error (.unknownConst ((tok.value.drop 1).dropLast))
      | .ARRAY => parse_array f s
      | .DICT_START => parse_dict f s
      | _ => .error (.unexpectedValue tok)

/-- `parse_array` (lines 125-135), fuel-indexed. -/
def parse_array : Nat → PState → Except Err (Value × PState)
  | 0, _ => .error .fuel
  | f + 1, s =>
    match eat .ARRAY s with
    | .error e => .error e
    | .ok s1 =>
      match eat .LPAREN s1 with
      | .error e => .error e
      | .ok s2 =>
        match s2.tokens.get? s2.pos with
        | none => .error .oob
        | some t =>
          if t.type = .RPAREN then
            match eat .RPAREN s2 with
            | .error e => .error e
            | .ok s3 => .ok (.arr [], s3)
          else
            match parse_value f s2 with
            | .error e => .error e
            | .ok (v, s3) =>
              match array_loop f [v] s3 with
              | .error e => .error e
              | .ok (items, s4) =>
                match eat .RPAREN s4 with
                | .error e => .error e
                | .ok s5 => .ok (.arr items, s5)

/-- The `while self.current.type == "COMMA"` loop of `parse_array`
(lines 131-133), fuel-indexed; `items` is the accumulator. -/
def array_loop : Nat → List Value → PState → Except Err (List Value × PState)
  | 0, _, _ => .error .fuel
  | f + 1, items, s =>
    match s.tokens.get? s.pos with
    | none => .error .oob
    | some t =>
      if t.type = .COMMA then
        match eat .COMMA s with
        | .error e => .error e
        | .ok s1 =>
          match parse_value f s1 with
          | .error e => .error e
          | .ok (v, s2) => array_loop f (items ++ [v]) s2
      else .ok (items, s)

/-- `parse_dict` (lines 137-148), fuel-indexed. -/
def parse_dict : Nat → PState → Except Err (Value × PState)
  | 0, _ => .error .fuel
  | f + 1, s =>
    match eat .DICT_START s with
    | .error e => .error e
    | .ok s1 =>
      match dict_loop f [] s1 with
      | .error e => .error e
      | .ok (m, s2) =>
        match eat .RBRACE s2 with
        | .error e => .error e
        | .ok s3 => .ok (.dict m, s3)

/-- The `while self.current.type == "IDENT"` loop of `parse_dict`
(lines 140-146), fuel-indexed; `m` is the accumulated dict and each entry
lands in it via the Python dict assignment `result[key] = value`. -/
def dict_loop : Nat → List (List Char × Value) → PState →
    Except Err (List (List Char × Value) × PState)
  | 0, _, _ => .error .fuel
  | f + 1, m, s =>
    match s.tokens.get? s.pos with
    | none => .error .oob
    | some t =>
      if t.type = .IDENT then
        match eat .IDENT s with
        | .error e => .error e
        | .ok s1 =>
          match eat .EQUAL s1 with
          | .error e => .error e
          | .ok s2 =>
            match parse_value f s2 with
            | .error e => .error e
            | .ok (v, s3) =>
              match eat .SEMICOLON s3 with
              | .error e => .error e
              | .ok s4 => dict_loop f (insertPy m t.value v) s4
      else .ok (m, s)

/-- `parse_const_def` (lines 87-97), fuel-indexed: `( def IDENT value ) ;`,
then bind the name in the constant table (a Python dict assignment, so a
redefinition overwrites). -/
def parse_const_def : Nat → PState → Except Err PState
  | 0, _ => .error .fuel
  | f + 1, s =>
    match eat .LPAREN s with
    | .error e => .error e
    | .ok s1 =>
      match eat .DEF s1 with
      | .error e => .error e
      | .ok s2 =>
        match s2.tokens.get? s2.pos with
        | none => .error .oob
        | some t =>
          if t.type = .IDENT then
            match eat .IDENT s2 with
            | .error e => .error e
            | .ok s3 =>
              match parse_value f s3 with
              | .error e => .error e
              | .ok (v, s4) =>
                match eat .RPAREN s4 with
                | .error e => .error e
                | .ok s5 =>
                  match eat .SEMICOLON s5 with
                  | .error e => .error e
                  | .ok s6 =>
                    .ok { s6 with consts := insertPy s6.consts t.value v }
          else .error .constName

/-- `parse_program` (lines 79-85), fuel-indexed: the
`while current is LPAREN and peek() is DEF` loop as recursion, then one
root value, then the end-of-input check. -/
def parse_program : Nat → PState → Except Err (Value × PState)
  | 0, _ => .error .fuel
  | f + 1, s =>
    match s.tokens.get? s.pos with
    | none => .error .oob
    | some t =>
      if t.type = .LPAREN then
        match peek s 1 with
        | none => .error .oob
        | some t2 =>
          if t2.type = .DEF then
            match parse_const_def f s with
            | .error e => .error e
            | .ok s1 => parse_program f s1
          else
            match parse_value f s with
            | .error e => .error e
            | .ok (v, s1) => endCheck v s1
      else
        match parse_value f s with
        | .error e => .error e
        | .ok (v, s1) => endCheck v s1

end

/-- `translate_text` (lines 151-155): tokenize, build a fresh parser
state, parse the program, return the root value.  The fuel
`tokens.length + 1` dominates the recursion depth of the source parser on
the same input. -/
def translate (cs : List Char) : Except Err Value :=
  match tokenize cs with
  | .error e => .error e
  | .ok toks =>
    match parse_program (toks.length + 1) (initState toks) with
    | .error e => .error e
    | .ok (v, _) => .ok v

/-- `translate_text` on a `String`. -/
def translate_text (text : String) : Except Err Value :=
  translate text.toList

theorem app_get?_right {α : Type} (m r : List α) (j : Nat) :
    (m ++ r).get? (m.length + j) = r.get? j := by
  induction m with
  | nil => simp
  | cons a as ih => simpa [Nat.succ_add] using ih

theorem app_get?_left {α : Type} (m r : List α) {j : Nat} (h : j < m.length) :
    (m ++ r).get? j = m.get? j := by
  induction m generalizing j with
  | nil => simp at h
  | cons a as ih =>
    cases j with
    | zero => rfl
    | succ j' =>
      simp only [List.cons_append, List.get?]
      exact ih (by simpa using h)

theorem app_drop {α : Type} (m r : List α) (j : Nat) :
    (m ++ r).drop (m.length + j) = r.drop j := by
  induction m with
  | nil => simp
  | cons a as ih => simpa [Nat.succ_add] using ih

theorem getLast?_eq_get? {α : Type} (m : List α) :
    m.getLast? = m.get? (m.length - 1) := by
  induction m with
  | nil => rfl
  | cons a as ih =>
    cases as with
    | nil => rfl
    | cons b bs =>
      rw [List.getLast?_cons_cons, ih]
      simp

/-- Complete behaviour of the scanning loop under sufficient fuel: either
all of the input is consumed into non-`WS`, non-`EOF` tokens, or a lex
error is raised carrying the character at its absolute offset, at a
position where no token rule matches. -/
theorem tokenizeAux_spec :
    ∀ (fuel : Nat) (cs : List Char) (prev : Option Char) (off : Nat),
    cs.length ≤ fuel →
    (∃ ts, tokenizeAux fuel prev cs off = .ok ts ∧
      ∀ t ∈ ts, t.type ≠ .WS ∧ t.type ≠ .EOF) ∨
    (∃ c j, tokenizeAux fuel prev cs off = .error (.lex c (off + j)) ∧
      cs.get? j = some c ∧
      tokenMatch (if j = 0 then prev else cs.get? (j - 1)) (cs.drop j) = none) := by
  intro fuel
  induction fuel with
  | zero =>
    intro cs prev off hlen
    have : cs = [] := by
      cases cs with
      | nil => rfl
      | cons c r => simp at hlen
    subst this
    exact .inl ⟨[], rfl, by simp⟩
  | succ f ih =>
    intro cs prev off hlen
    cases cs with
    | nil => exact .inl ⟨[], rfl, by simp⟩
    | cons c rest0 =>
      cases hm : tokenMatch prev (c :: rest0) with
      | none =>
        refine .inr ⟨c, 0, ?_, rfl, ?_⟩
        · simp only [tokenizeAux, hm, Nat.add_zero]
        · simpa using hm
      | some res =>
        obtain ⟨k, m, r⟩ := res
        obtain ⟨he, hm0, -⟩ := tokenMatch_spec hm
        have hrlen : r.length ≤ f := by
          have h1 : (c :: rest0).length = m.length + r.length := by
            rw [he, List.length_append]
          have h2 : 0 < m.length := List.length_pos.mpr hm0
          simp only [List.length_cons] at hlen h1
          omega
        rcases ih r m.getLast? (off + m.length) hrlen with
          ⟨ts, hts, hprop⟩ | ⟨c', j', herr, hget, hmz⟩
        · by_cases hk : k = TokKind.WS
          · refine .inl ⟨ts, ?_, hprop⟩
            subst hk
            simp [tokenizeAux, hm, hts]
          · refine .inl ⟨⟨k, m⟩ :: ts, ?_, ?_⟩
            · simp [tokenizeAux, hm, hts, hk]
            · intro t ht
              rcases List.mem_cons.mp ht with rfl | ht'
              · exact ⟨hk, (tokenMatch_spec hm).2.2⟩
              · exact hprop t ht'
        · refine .inr ⟨c', m.length + j', ?_, ?_, ?_⟩
          · simp only [tokenizeAux, hm, herr, ← Nat.add_assoc]
          · rw [he, app_get?_right m r j'] at *
            exact hget
          · have hj : m.length + j' ≠ 0 := by
              have := List.length_pos.mpr hm0
              omega
            rw [if_neg hj, he]
            cases j' with
            | zero =>
              have hlt : m.length - 1 < m.length := by
                have := List.length_pos.mpr hm0
                omega
              rw [Nat.add_zero, app_get?_left m r hlt, ← getLast?_eq_get?]
              rw [if_pos rfl] at hmz
              have : (m ++ r).drop m.length = r := by
                have := app_drop m r 0
                simpa using this
              rw [this]
              simpa using hmz
            | succ j'' =>
              have h1 : m.length + (j'' + 1) - 1 = m.length + j'' := by omega
              rw [h1, app_get?_right m r j'', app_drop m r (j'' + 1)]
              have h2 : j'' + 1 - 1 = j'' := by omega
              rw [if_neg (by omega : ¬(j'' + 1 = 0)), h2] at hmz
              exact hmz

/-- Complete behaviour of `tokenize`: either every character is consumed
into a whitespace-free token list with a single `EOF` token appended, or
the scan stops with a lex error at the first unmatched character. -/
theorem tokenize_cases (cs : List Char) :
    (∃ rs, tokenize cs = .ok (rs ++ [eofToken]) ∧
      ∀ t ∈ rs, t.type ≠ .WS ∧ t.type ≠ .EOF) ∨
    (∃ c i, tokenize cs = .error (.lex c i) ∧ cs.get? i = some c ∧
      tokenMatch (if i = 0 then none else cs.get? (i - 1)) (cs.drop i) = none) := by
  rcases tokenizeAux_spec cs.length cs none 0 (Nat.le_refl _) with
    ⟨ts, hts, hprop⟩ | ⟨c, j, herr, hget, hmz⟩
  · refine .inl ⟨ts, ?_, hprop⟩
    simp only [tokenize, hts]
  · refine .inr ⟨c, j, ?_, hget, hmz⟩
    simp only [tokenize, herr, Nat.zero_add]

/-- Well-formed token lists: what `tokenize` returns on success — some
tokens none of which is `EOF`, then the single synthetic `EOF` token. -/
def EndsEOF (toks : List Token) : Prop :=
  ∃ rs, toks = rs ++ [eofToken] ∧ ∀ t ∈ rs, t.type ≠ .EOF

theorem tokenize_ok_endsEOF {cs : List Char} {toks : List Token}
    (h : tokenize cs = .ok toks) : EndsEOF toks := by
  rcases tokenize_cases cs with ⟨rs, hok, hprop⟩ | ⟨c, i, herr, -, -⟩
  · rw [h] at hok
    injection hok with hok
    exact ⟨rs, hok, fun t ht => (hprop t ht).2⟩
  · rw [h] at herr
    cases herr

theorem endsEOF_ne_nil {toks : List Token} (h : EndsEOF toks) : toks ≠ [] := by
  obtain ⟨rs, rfl, -⟩ := h
  simp

theorem endsEOF_get_some {toks : List Token} {i : Nat} (h : EndsEOF toks)
    (hi : i < toks.length) : ∃ t, toks.get? i = some t := by
  cases hg : toks.get? i with
  | none => exact absurd (List.get?_eq_none.mp hg) (by omega)
  | some t => exact ⟨t, rfl⟩

/-- In a well-formed token list, only the final position holds `EOF`. -/
theorem endsEOF_last_eof {toks : List Token} {i : Nat} {t : Token}
    (h : EndsEOF toks) (hg : toks.get? i = some t) (ht : t.type = .EOF) :
    i + 1 = toks.length := by
  obtain ⟨rs, rfl, hprop⟩ := h
  by_cases hi : i < rs.length
  · rw [app_get?_left rs [eofToken] hi] at hg
    exact absurd ht (hprop t (List.get?_mem hg))
  · have hlen : i < rs.length + 1 := by
      by_contra hc
      push_neg at hc
      have hle : (rs ++ [eofToken]).length ≤ i := by
        simp only [List.length_append, List.length_cons, List.length_nil]
        omega
      rw [List.get?_eq_none.mpr hle] at hg
      cases hg
    simp only [List.length_append, List.length_cons, List.length_nil]
    omega

/-- The token at the final position is the `EOF` token itself. -/
theorem endsEOF_at_last {toks : List Token} {i : Nat} {t : Token}
    (h : EndsEOF toks) (hg : toks.get? i = some t) (hi : i + 1 = toks.length) :
    t = eofToken := by
  obtain ⟨rs, rfl, -⟩ := h
  have : i = rs.length := by
    simp only [List.length_append, List.length_cons, List.length_nil] at hi
    omega
  subst this
  have := app_get?_right rs [eofToken] 0
  rw [Nat.add_zero] at this
  rw [this] at hg
  injection hg with hg
  exact hg.symm

/-- Complete behaviour of `eat` from an in-range cursor on a well-formed
token list, for any expected kind other than `EOF`: either the current
token has the expected kind and only the cursor advances, staying in
range, or the expected/found error is raised. -/
theorem eat_cases {e : TokKind} {s : PState} (hE : EndsEOF s.tokens)
    (hp : s.pos < s.tokens.length) (hne : e ≠ .EOF) :
    (∃ t, s.tokens.get? s.pos = some t ∧ t.type = e ∧
      eat e s = .ok { s with pos := s.pos + 1 } ∧ s.pos + 1 < s.tokens.length) ∨
    (∃ t, s.tokens.get? s.pos = some t ∧ t.type ≠ e ∧
      eat e s = .error (.expected e t)) := by
  obtain ⟨t, hget⟩ := endsEOF_get_some hE hp
  have hg2 : s.tokens[s.pos]? = some t := by
    rw [← List.get?_eq_getElem?]; exact hget
  by_cases ht : t.type = e
  · refine .inl ⟨t, hget, ht, ?_, ?_⟩
    · simp [eat, hg2, ht]
    · by_contra hc
      have hlast : s.pos + 1 = s.tokens.length := by omega
      have := endsEOF_at_last hE hget hlast
      subst this
      exact hne ht.symm
  · refine .inr ⟨t, hget, ht, ?_⟩
    simp [eat, hg2, ht]

/-- `peek` is total on a well-formed token list (the clamp to `tokens[-1]`
can only fail on an empty list). -/
theorem peek_some {s : PState} (hE : EndsEOF s.tokens) (off : Nat) :
    ∃ t, peek s off = some t := by
  unfold peek
  by_cases hin : s.pos + off < s.tokens.length
  · rw [if_pos hin]
    exact endsEOF_get_some hE hin
  · rw [if_neg hin]
    obtain ⟨rs, heq, -⟩ := hE
    refine ⟨eofToken, ?_⟩
    rw [heq, getLast?_eq_get?]
    have h1 : (rs ++ [eofToken]).length - 1 = rs.length + 0 := by
      simp
    rw [h1, app_get?_right rs [eofToken] 0]
    rfl

/-- `endCheck` from a well-formed in-range state: no out-of-range access,
and success returns the state unchanged. -/
theorem endCheck_inv {v : Value} {s : PState} (hE : EndsEOF s.tokens)
    (hp : s.pos < s.tokens.length) :
    endCheck v s ≠ .error .oob ∧
    ∀ v' s', endCheck v s = .ok (v', s') → v' = v ∧ s' = s := by
  obtain ⟨t, hget⟩ := endsEOF_get_some hE hp
  have hg2 : s.tokens[s.pos]? = some t := by
    rw [← List.get?_eq_getElem?]; exact hget
  by_cases ht : t.type = .EOF
  · constructor
    · intro h
      simp [endCheck, hg2, ht] at h
    · intro v' s' h
      simp [endCheck, hg2, ht] at h
      exact ⟨h.1.symm, h.2.symm⟩
  · constructor
    · intro h
      simp [endCheck, hg2, ht] at h
    · intro v' s' h
      simp [endCheck, hg2, ht] at h

theorem getE {s : PState} {t : Token} (h : s.tokens.get? s.pos = some t) :
    s.tokens[s.pos]? = some t := by
  rw [← List.get?_eq_getElem?]; exact h

theorem optG {α : Type} {l : List α} {i : Nat} {t : α}
    (h : l.get? i = some t) : l[i]? = some t := by
  rw [← List.get?_eq_getElem?]; exact h

theorem optGn {α : Type} {l : List α} {i : Nat}
    (h : l.get? i = none) : l[i]? = none := by
  rw [← List.get?_eq_getElem?]; exact h

/-- What a successful `eat` did: advanced the cursor by one over a token
of the expected kind, leaving tokens and constants unchanged. -/
theorem eat_ok_facts {k : TokKind} {s s' : PState} (h : eat k s = .ok s') :
    s'.tokens = s.tokens ∧ s'.consts = s.consts ∧ s'.pos = s.pos + 1 ∧
    ∃ t, s.tokens.get? s.pos = some t ∧ t.type = k := by
  cases hg : s.tokens.get? s.pos with
  | none => simp [eat, optGn hg] at h
  | some t =>
    by_cases ht : t.type = k
    · simp [eat, optG hg, ht] at h
      rw [← h]
      exact ⟨rfl, rfl, rfl, t, rfl, ht⟩
    · simp [eat, optG hg, ht] at h

/-- A successful `eat` of a non-`EOF` kind keeps the cursor in range. -/
theorem eat_ok_lt {k : TokKind} {s s' : PState} (hE : EndsEOF s.tokens)
    (hp : s.pos < s.tokens.length) (hk : k ≠ .EOF) (h : eat k s = .ok s') :
    s'.pos < s'.tokens.length := by
  obtain ⟨hts, -, hpos, t, hg, ht⟩ := eat_ok_facts h
  rw [hts, hpos]
  by_contra hc
  have hlast : s.pos + 1 = s.tokens.length := by omega
  have := endsEOF_at_last hE hg hlast
  subst this
  exact hk (ht ▸ rfl)

/-- `eat` from an in-range cursor never raises the out-of-range error. -/
theorem eat_err_not_oob {k : TokKind} {s : PState} {e : Err}
    (hE : EndsEOF s.tokens) (hp : s.pos < s.tokens.length)
    (h : eat k s = .error e) : e ≠ .oob := by
  obtain ⟨t, hg⟩ := endsEOF_get_some hE hp
  by_cases ht : t.type = k
  · simp [eat, optG hg, ht] at h
  · simp [eat, optG hg, ht] at h
    rw [← h]
    simp

theorem err_conj {β : Type} {e : Err} (hne : e ≠ .oob) :
    (Except.error e : Except Err β) ≠ .error .oob := by
  intro h
  injection h with h'
  exact hne h'

theorem err_ne_ok {β : Type} {e : Err} {b : β}
    (h : (Except.error e : Except Err β) = .ok b) : False := by
  simp at h

theorem ok_conj {α : Type} {a : α} {s0 : PState} {stoks : List Token}
    (h1 : s0.tokens = stoks) (h2 : s0.pos < s0.tokens.length) :
    ((Except.ok (a, s0) : Except Err (α × PState)) ≠ .error .oob ∧
    ∀ b s', (Except.ok (a, s0) : Except Err (α × PState)) = .ok (b, s') →
      s'.tokens = stoks ∧ s'.pos < stoks.length) := by
  constructor
  · simp
  · intro b s' h
    simp only [Except.ok.injEq, Prod.mk.injEq] at h
    obtain ⟨-, hs⟩ := h
    rw [← hs]
    exact ⟨h1, by rw [← h1]; exact h2⟩

theorem ok_conjS {s0 : PState} {stoks : List Token}
    (h1 : s0.tokens = stoks) (h2 : s0.pos < s0.tokens.length) :
    ((Except.ok s0 : Except Err PState) ≠ .error .oob ∧
    ∀ s', (Except.ok s0 : Except Err PState) = .ok s' →
      s'.tokens = stoks ∧ s'.pos < stoks.length) := by
  constructor
  · simp
  · intro s' h
    injection h with h'
    rw [← h']
    exact ⟨h1, by rw [← h1]; exact h2⟩

/-- The parser-wide safety invariant, proved for all fuel values at once:
started from an in-range cursor on a well-formed token list, none of the
parser functions ever performs an out-of-range token access (modelled by
the `.oob` error), and on success the token list is unchanged and the
cursor is again in range — in particular the `EOF` token is never
consumed. -/
theorem parser_inv : ∀ f : Nat,
    (∀ s : PState, EndsEOF s.tokens → s.pos < s.tokens.length →
      parse_value f s ≠ .error .oob ∧
      ∀ v s', parse_value f s = .ok (v, s') →
        s'.tokens = s.tokens ∧ s'.pos < s.tokens.length) ∧
    (∀ s : PState, EndsEOF s.tokens → s.pos < s.tokens.length →
      parse_array f s ≠ .error .oob ∧
      ∀ v s', parse_array f s = .ok (v, s') →
        s'.tokens = s.tokens ∧ s'.pos < s.tokens.length) ∧
    (∀ (items : List Value) (s : PState),
      EndsEOF s.tokens → s.pos < s.tokens.length →
      array_loop f items s ≠ .error .oob ∧
      ∀ l s', array_loop f items s = .ok (l, s') →
        s'.tokens = s.tokens ∧ s'.pos < s.tokens.length) ∧
    (∀ s : PState, EndsEOF s.tokens → s.pos < s.tokens.length →
      parse_dict f s ≠ .error .oob ∧
      ∀ v s', parse_dict f s = .ok (v, s') →
        s'.tokens = s.tokens ∧ s'.pos < s.tokens.length) ∧
    (∀ (m : List (List Char × Value)) (s : PState),
      EndsEOF s.tokens → s.pos < s.tokens.length →
      dict_loop f m s ≠ .error .oob ∧
      ∀ l s', dict_loop f m s = .ok (l, s') →
        s'.tokens = s.tokens ∧ s'.pos < s.tokens.length) ∧
    (∀ s : PState, EndsEOF s.tokens → s.pos < s.tokens.length →
      parse_const_def f s ≠ .error .oob ∧
      ∀ s', parse_const_def f s = .ok s' →
        s'.tokens = s.tokens ∧ s'.pos < s.tokens.length) ∧
    (∀ s : PState, EndsEOF s.tokens → s.pos < s.tokens.length →
      parse_program f s ≠ .error .oob ∧
      ∀ v s', parse_program f s = .ok (v, s') →
        s'.tokens = s.tokens ∧ s'.pos < s.tokens.length) := by
  intro f
  induction f with
  | zero =>
    refine ⟨?_, ?_, ?_, ?_, ?_, ?_, ?_⟩
    · intro s hE hp
      exact ⟨by simp [parse_value], fun v s' h => by simp [parse_value] at h⟩
    · intro s hE hp
      exact ⟨by simp [parse_array], fun v s' h => by simp [parse_array] at h⟩
    · intro items s hE hp
      exact ⟨by simp [array_loop], fun l s' h => by simp [array_loop] at h⟩
    · intro s hE hp
      exact ⟨by simp [parse_dict], fun v s' h => by simp [parse_dict] at h⟩
    · intro m s hE hp
      exact ⟨by simp [dict_loop], fun l s' h => by simp [dict_loop] at h⟩
    · intro s hE hp
      exact ⟨by simp [parse_const_def], fun s' h => by simp [parse_const_def] at h⟩
    · intro s hE hp
      exact ⟨by simp [parse_program], fun v s' h => by simp [parse_program] at h⟩
  | succ f ih =>
    obtain ⟨ihv, iha, ihal, ihd, ihdl, ihc, ihp⟩ := ih
    have hV : ∀ s : PState, EndsEOF s.tokens → s.pos < s.tokens.length →
        parse_value (f + 1) s ≠ .error .oob ∧
        ∀ v s', parse_value (f + 1) s = .ok (v, s') →
          s'.tokens = s.tokens ∧ s'.pos < s.tokens.length := by
      intro s hE hp
      obtain ⟨tok, hget⟩ := endsEOF_get_some hE hp
      obtain ⟨ty, val⟩ := tok
      have hg2 := getE hget
      cases ty with
      | NUMBER =>
        rcases eat_cases (e := .NUMBER) hE hp (by intro hh; cases hh) with
          ⟨t, hgt, hty, heat, hlt⟩ | ⟨t, hgt, hty, heat⟩
        · cases hpb : parse_binary val with
          | some n =>
            have hred : parse_value (f + 1) s =
                .ok (.int n, { s with pos := s.pos + 1 }) := by
              simp [parse_value, hg2, heat, hpb]
            rw [hred]
            refine ⟨by simp, ?_⟩
            intro v s' h
            simp only [Except.ok.injEq, Prod.mk.injEq] at h
            obtain ⟨-, h2⟩ := h
            rw [← h2]
            exact ⟨rfl, hlt⟩
          | none =>
            have hred : parse_value (f + 1) s = .error (.valueError val) := by
              simp [parse_value, hg2, heat, hpb]
            rw [hred]
            exact ⟨by simp, fun v s' h => by simp at h⟩
        · have hred : parse_value (f + 1) s = .error (.expected .NUMBER t) := by
            simp [parse_value, hg2, heat]
          rw [hred]
          exact ⟨by simp, fun v s' h => by simp at h⟩
      | STRING =>
        rcases eat_cases (e := .STRING) hE hp (by intro hh; cases hh) with
          ⟨t, hgt, hty, heat, hlt⟩ | ⟨t, hgt, hty, heat⟩
        · have hred : parse_value (f + 1) s =
              .ok (.str ((val.drop 2).dropLast.dropLast), { s with pos := s.pos + 1 }) := by
            simp [parse_value, hg2, heat]
          rw [hred]
          refine ⟨by simp, ?_⟩
          intro v s' h
          simp only [Except.ok.injEq, Prod.mk.injEq] at h
          obtain ⟨-, h2⟩ := h
          rw [← h2]
          exact ⟨rfl, hlt⟩
        · have hred : parse_value (f + 1) s = .error (.expected .STRING t) := by
            simp [parse_value, hg2, heat]
          rw [hred]
          exact ⟨by simp, fun v s' h => by simp at h⟩
      | CONSTREF =>
        rcases eat_cases (e := .CONSTREF) hE hp (by intro hh; cases hh) with
          ⟨t, hgt, hty, heat, hlt⟩ | ⟨t, hgt, hty, heat⟩
        · cases hlk : assocLookup (val.tail.dropLast) s.consts with
          | some v0 =>
            have hred : parse_value (f + 1) s =
                .ok (v0, { s with pos := s.pos + 1 }) := by
              simp [parse_value, hg2, heat, hlk]
            rw [hred]
            refine ⟨by simp, ?_⟩
            intro v s' h
            simp only [Except.ok.injEq, Prod.mk.injEq] at h
            obtain ⟨-, h2⟩ := h
            rw [← h2]
            exact ⟨rfl, hlt⟩
          | none =>
            have hred : parse_value (f + 1) s =
                .error (.unknownConst (val.tail.dropLast)) := by
              simp [parse_value, hg2, heat, hlk]
            rw [hred]
            exact ⟨by simp, fun v s' h => by simp at h⟩
        · have hred : parse_value (f + 1) s = .error (.expected .CONSTREF t) := by
            simp [parse_value, hg2, heat]
          rw [hred]
          exact ⟨by simp, fun v s' h => by simp at h⟩
      | ARRAY =>
        have hred : parse_value (f + 1) s = parse_array f s := by
          simp [parse_value, hg2]
        rw [hred]
        exact iha s hE hp
      | DICT_START =>
        have hred : parse_value (f + 1) s = parse_dict f s := by
          simp [parse_value, hg2]
        rw [hred]
        exact ihd s hE hp
      | WS =>
        have hred : parse_value (f + 1) s = .error (.unexpectedValue ⟨.WS, val⟩) := by
          simp [parse_value, hg2]
        rw [hred]
        exact ⟨by simp, fun v s' h => by simp at h⟩
      | LBRACE =>
        have hred : parse_value (f + 1) s = .error (.unexpectedValue ⟨.LBRACE, val⟩) := by
          simp [parse_value, hg2]
        rw [hred]
        exact ⟨by simp, fun v s' h => by simp at h⟩
      | RBRACE =>
        have hred : parse_value (f + 1) s = .error (.unexpectedValue ⟨.RBRACE, val⟩) := by
          simp [parse_value, hg2]
        rw [hred]
        exact ⟨by simp, fun v s' h => by simp at h⟩
      | LPAREN =>
        have hred : parse_value (f + 1) s = .error (.unexpectedValue ⟨.LPAREN, val⟩) := by
          simp [parse_value, hg2]
        rw [hred]
        exact ⟨by simp, fun v s' h => by simp at h⟩
      | RPAREN =>
        have hred : parse_value (f + 1) s = .error (.unexpectedValue ⟨.RPAREN, val⟩) := by
          simp [parse_value, hg2]
        rw [hred]
        exact ⟨by simp, fun v s' h => by simp at h⟩
      | COMMA =>
        have hred : parse_value (f + 1) s = .error (.unexpectedValue ⟨.COMMA, val⟩) := by
          simp [parse_value, hg2]
        rw [hred]
        exact ⟨by simp, fun v s' h => by simp at h⟩
      | EQUAL =>
        have hred : parse_value (f + 1) s = .error (.unexpectedValue ⟨.EQUAL, val⟩) := by
          simp [parse_value, hg2]
        rw [hred]
        exact ⟨by simp, fun v s' h => by simp at h⟩
      | SEMICOLON =>
        have hred : parse_value (f + 1) s = .error (.unexpectedValue ⟨.SEMICOLON, val⟩) := by
          simp [parse_value, hg2]
        rw [hred]
        exact ⟨by simp, fun v s' h => by simp at h⟩
      | DEF =>
        have hred : parse_value (f + 1) s = .error (.unexpectedValue ⟨.DEF, val⟩) := by
          simp [parse_value, hg2]
        rw [hred]
        exact ⟨by simp, fun v s' h => by simp at h⟩
      | IDENT =>
        have hred : parse_value (f + 1) s = .error (.unexpectedValue ⟨.IDENT, val⟩) := by
          simp [parse_value, hg2]
        rw [hred]
        exact ⟨by simp, fun v s' h => by simp at h⟩
      | EOF =>
        have hred : parse_value (f + 1) s = .error (.unexpectedValue ⟨.EOF, val⟩) := by
          simp [parse_value, hg2]
        rw [hred]
        exact ⟨by simp, fun v s' h => by simp at h⟩
    have hA : ∀ s : PState, EndsEOF s.tokens → s.pos < s.tokens.length →
        parse_array (f + 1) s ≠ .error .oob ∧
        ∀ v s', parse_array (f + 1) s = .ok (v, s') →
          s'.tokens = s.tokens ∧ s'.pos < s.tokens.length := by
      intro s hE hp
      cases h1 : eat .ARRAY s with
      | error e =>
        have hne := eat_err_not_oob hE hp h1
        have hred : parse_array (f + 1) s = .error e := by
          simp [parse_array, h1]
        rw [hred]
        exact ⟨err_conj hne, fun v s' h => (err_ne_ok h).elim⟩
      | ok s1 =>
        have hts1 : s1.tokens = s.tokens := (eat_ok_facts h1).1
        have hE1 : EndsEOF s1.tokens := by rw [hts1]; exact hE
        have hp1 : s1.pos < s1.tokens.length :=
          eat_ok_lt hE hp (by intro hh; cases hh) h1
        cases h2 : eat .LPAREN s1 with
        | error e =>
          have hne := eat_err_not_oob hE1 hp1 h2
          have hred : parse_array (f + 1) s = .error e := by
            simp [parse_array, h1, h2]
          rw [hred]
          exact ⟨err_conj hne, fun v s' h => (err_ne_ok h).elim⟩
        | ok s2 =>
          have hts2 : s2.tokens = s.tokens := by
            rw [(eat_ok_facts h2).1, hts1]
          have hE2 : EndsEOF s2.tokens := by rw [hts2]; exact hE
          have hp2 : s2.pos < s2.tokens.length :=
            eat_ok_lt hE1 hp1 (by intro hh; cases hh) h2
          obtain ⟨t2, hg2⟩ := endsEOF_get_some hE2 hp2
          by_cases ht2 : t2.type = .RPAREN
          · cases h3 : eat .RPAREN s2 with
            | error e =>
              have hne := eat_err_not_oob hE2 hp2 h3
              have hred : parse_array (f + 1) s = .error e := by
                simp [parse_array, h1, h2, optG hg2, ht2, h3]
              rw [hred]
              exact ⟨err_conj hne, fun v s' h => (err_ne_ok h).elim⟩
            | ok s3 =>
              have hp3 : s3.pos < s3.tokens.length :=
                eat_ok_lt hE2 hp2 (by intro hh; cases hh) h3
              have hts3 : s3.tokens = s.tokens := by
                rw [(eat_ok_facts h3).1, hts2]
              have hred : parse_array (f + 1) s = .ok (.arr [], s3) := by
                simp [parse_array, h1, h2, optG hg2, ht2, h3]
              rw [hred]
              exact ok_conj hts3 hp3
          · cases hv : parse_value f s2 with
            | error e =>
              have hne : e ≠ .oob := by
                intro he
                subst he
                exact (ihv s2 hE2 hp2).1 hv
              have hred : parse_array (f + 1) s = .error e := by
                simp [parse_array, h1, h2, optG hg2, ht2, hv]
              rw [hred]
              exact ⟨err_conj hne, fun v s' h => (err_ne_ok h).elim⟩
            | ok p =>
              obtain ⟨v0, s3⟩ := p
              obtain ⟨hts3', hp3'⟩ := (ihv s2 hE2 hp2).2 v0 s3 hv
              have hts3 : s3.tokens = s.tokens := by rw [hts3', hts2]
              have hE3 : EndsEOF s3.tokens := by rw [hts3]; exact hE
              have hp3 : s3.pos < s3.tokens.length := by
                rw [hts3']; exact hp3'
              cases hal : array_loop f [v0] s3 with
              | error e =>
                have hne : e ≠ .oob := by
                  intro he
                  subst he
                  exact (ihal [v0] s3 hE3 hp3).1 hal
                have hred : parse_array (f + 1) s = .error e := by
                  simp [parse_array, h1, h2, optG hg2, ht2, hv, hal]
                rw [hred]
                exact ⟨err_conj hne, fun v s' h => (err_ne_ok h).elim⟩
              | ok q =>
                obtain ⟨items, s4⟩ := q
                obtain ⟨hts4', hp4'⟩ := (ihal [v0] s3 hE3 hp3).2 items s4 hal
                have hts4 : s4.tokens = s.tokens := by rw [hts4', hts3]
                have hE4 : EndsEOF s4.tokens := by rw [hts4]; exact hE
                have hp4 : s4.pos < s4.tokens.length := by
                  rw [hts4']; exact hp4'
                cases h5 : eat .RPAREN s4 with
                | error e =>
                  have hne := eat_err_not_oob hE4 hp4 h5
                  have hred : parse_array (f + 1) s = .error e := by
                    simp [parse_array, h1, h2, optG hg2, ht2, hv, hal, h5]
                  rw [hred]
                  exact ⟨err_conj hne, fun v s' h => (err_ne_ok h).elim⟩
                | ok s5 =>
                  have hp5 : s5.pos < s5.tokens.length :=
                    eat_ok_lt hE4 hp4 (by intro hh; cases hh) h5
                  have hts5 : s5.tokens = s.tokens := by
                    rw [(eat_ok_facts h5).1, hts4]
                  have hred : parse_array (f + 1) s = .ok (.arr items, s5) := by
                    simp [parse_array, h1, h2, optG hg2, ht2, hv, hal, h5]
                  rw [hred]
                  exact ok_conj hts5 hp5
    have hAL : ∀ (items : List Value) (s : PState),
        EndsEOF s.tokens → s.pos < s.tokens.length →
        array_loop (f + 1) items s ≠ .error .oob ∧
        ∀ l s', array_loop (f + 1) items s = .ok (l, s') →
          s'.tokens = s.tokens ∧ s'.pos < s.tokens.length := by
      intro items s hE hp
      obtain ⟨t, hg⟩ := endsEOF_get_some hE hp
      by_cases ht : t.type = .COMMA
      · cases h1 : eat .COMMA s with
        | error e =>
          have hne := eat_err_not_oob hE hp h1
          have hred : array_loop (f + 1) items s = .error e := by
            simp [array_loop, optG hg, ht, h1]
          rw [hred]
          exact ⟨err_conj hne, fun l s' h => (err_ne_ok h).elim⟩
        | ok s1 =>
          have hts1 : s1.tokens = s.tokens := (eat_ok_facts h1).1
          have hE1 : EndsEOF s1.tokens := by rw [hts1]; exact hE
          have hp1 : s1.pos < s1.tokens.length :=
            eat_ok_lt hE hp (by intro hh; cases hh) h1
          cases hv : parse_value f s1 with
          | error e =>
            have hne : e ≠ .oob := by
              intro he
              subst he
              exact (ihv s1 hE1 hp1).1 hv
            have hred : array_loop (f + 1) items s = .error e := by
              simp [array_loop, optG hg, ht, h1, hv]
            rw [hred]
            exact ⟨err_conj hne, fun l s' h => (err_ne_ok h).elim⟩
          | ok p =>
            obtain ⟨v0, s2⟩ := p
            obtain ⟨hts2', hp2'⟩ := (ihv s1 hE1 hp1).2 v0 s2 hv
            have hts2 : s2.tokens = s.tokens := by rw [hts2', hts1]
            have hE2 : EndsEOF s2.tokens := by rw [hts2]; exact hE
            have hp2 : s2.pos < s2.tokens.length := by
              rw [hts2']; exact hp2'
            cases hal : array_loop f (items ++ [v0]) s2 with
            | error e =>
              have hne : e ≠ .oob := by
                intro he
                subst he
                exact (ihal (items ++ [v0]) s2 hE2 hp2).1 hal
              have hred : array_loop (f + 1) items s = .error e := by
                simp [array_loop, optG hg, ht, h1, hv, hal]
              rw [hred]
              exact ⟨err_conj hne, fun l s' h => (err_ne_ok h).elim⟩
            | ok q =>
              obtain ⟨l0, s3⟩ := q
              obtain ⟨hts3', hp3'⟩ :=
                (ihal (items ++ [v0]) s2 hE2 hp2).2 l0 s3 hal
              have hts3 : s3.tokens = s.tokens := by rw [hts3', hts2]
              have hp3 : s3.pos < s3.tokens.length := by
                rw [hts3']; exact hp3'
              have hred : array_loop (f + 1) items s = .ok (l0, s3) := by
                simp [array_loop, optG hg, ht, h1, hv, hal]
              rw [hred]
              exact ok_conj hts3 hp3
      · have hred : array_loop (f + 1) items s = .ok (items, s) := by
          simp [array_loop, optG hg, ht]
        rw [hred]
        exact ok_conj rfl hp
    have hD : ∀ s : PState, EndsEOF s.tokens → s.pos < s.tokens.length →
        parse_dict (f + 1) s ≠ .error .oob ∧
        ∀ v s', parse_dict (f + 1) s = .ok (v, s') →
          s'.tokens = s.tokens ∧ s'.pos < s.tokens.length := by
      intro s hE hp
      cases h1 : eat .DICT_START s with
      | error e =>
        have hne := eat_err_not_oob hE hp h1
        have hred : parse_dict (f + 1) s = .error e := by
          simp [parse_dict, h1]
        rw [hred]
        exact ⟨err_conj hne, fun v s' h => (err_ne_ok h).elim⟩
      | ok s1 =>
        have hts1 : s1.tokens = s.tokens := (eat_ok_facts h1).1
        have hE1 : EndsEOF s1.tokens := by rw [hts1]; exact hE
        have hp1 : s1.pos < s1.tokens.length :=
          eat_ok_lt hE hp (by intro hh; cases hh) h1
        cases hdl : dict_loop f [] s1 with
        | error e =>
          have hne : e ≠ .oob := by
            intro he
            subst he
            exact (ihdl [] s1 hE1 hp1).1 hdl
          have hred : parse_dict (f + 1) s = .error e := by
            simp [parse_dict, h1, hdl]
          rw [hred]
          exact ⟨err_conj hne, fun v s' h => (err_ne_ok h).elim⟩
        | ok q =>
          obtain ⟨m, s2⟩ := q
          obtain ⟨hts2', hp2'⟩ := (ihdl [] s1 hE1 hp1).2 m s2 hdl
          have hts2 : s2.tokens = s.tokens := by rw [hts2', hts1]
          have hE2 : EndsEOF s2.tokens := by rw [hts2]; exact hE
          have hp2 : s2.pos < s2.tokens.length := by
            rw [hts2']; exact hp2'
          cases h3 : eat .RBRACE s2 with
          | error e =>
            have hne := eat_err_not_oob hE2 hp2 h3
            have hred : parse_dict (f + 1) s = .error e := by
              simp [parse_dict, h1, hdl, h3]
            rw [hred]
            exact ⟨err_conj hne, fun v s' h => (err_ne_ok h).elim⟩
          | ok s3 =>
            have hp3 : s3.pos < s3.tokens.length :=
              eat_ok_lt hE2 hp2 (by intro hh; cases hh) h3
            have hts3 : s3.tokens = s.tokens := by
              rw [(eat_ok_facts h3).1, hts2]
            have hred : parse_dict (f + 1) s = .ok (.dict m, s3) := by
              simp [parse_dict, h1, hdl, h3]
            rw [hred]
            exact ok_conj hts3 hp3
    have hDL : ∀ (m : List (List Char × Value)) (s : PState),
        EndsEOF s.tokens → s.pos < s.tokens.length →
        dict_loop (f + 1) m s ≠ .error .oob ∧
        ∀ l s', dict_loop (f + 1) m s = .ok (l, s') →
          s'.tokens = s.tokens ∧ s'.pos < s.tokens.length := by
      intro m s hE hp
      obtain ⟨t, hg⟩ := endsEOF_get_some hE hp
      by_cases ht : t.type = .IDENT
      · cases h1 : eat .IDENT s with
        | error e =>
          have hne := eat_err_not_oob hE hp h1
          have hred : dict_loop (f + 1) m s = .error e := by
            simp [dict_loop, optG hg, ht, h1]
          rw [hred]
          exact ⟨err_conj hne, fun l s' h => (err_ne_ok h).elim⟩
        | ok s1 =>
          have hts1 : s1.tokens = s.tokens := (eat_ok_facts h1).1
          have hE1 : EndsEOF s1.tokens := by rw [hts1]; exact hE
          have hp1 : s1.pos < s1.tokens.length :=
            eat_ok_lt hE hp (by intro hh; cases hh) h1
          cases h2 : eat .EQUAL s1 with
          | error e =>
            have hne := eat_err_not_oob hE1 hp1 h2
            have hred : dict_loop (f + 1) m s = .error e := by
              simp [dict_loop, optG hg, ht, h1, h2]
            rw [hred]
            exact ⟨err_conj hne, fun l s' h => (err_ne_ok h).elim⟩
          | ok s2 =>
            have hts2 : s2.tokens = s.tokens := by
              rw [(eat_ok_facts h2).1, hts1]
            have hE2 : EndsEOF s2.tokens := by rw [hts2]; exact hE
            have hp2 : s2.pos < s2.tokens.length :=
              eat_ok_lt hE1 hp1 (by intro hh; cases hh) h2
            cases hv : parse_value f s2 with
            | error e =>
              have hne : e ≠ .oob := by
                intro he
                subst he
                exact (ihv s2 hE2 hp2).1 hv
              have hred : dict_loop (f + 1) m s = .error e := by
                simp [dict_loop, optG hg, ht, h1, h2, hv]
              rw [hred]
              exact ⟨err_conj hne, fun l s' h => (err_ne_ok h).elim⟩
            | ok p =>
              obtain ⟨v0, s3⟩ := p
              obtain ⟨hts3', hp3'⟩ := (ihv s2 hE2 hp2).2 v0 s3 hv
              have hts3 : s3.tokens = s.tokens := by rw [hts3', hts2]
              have hE3 : EndsEOF s3.tokens := by rw [hts3]; exact hE
              have hp3 : s3.pos < s3.tokens.length := by
                rw [hts3']; exact hp3'
              cases h4 : eat .SEMICOLON s3 with
              | error e =>
                have hne := eat_err_not_oob hE3 hp3 h4
                have hred : dict_loop (f + 1) m s = .error e := by
                  simp [dict_loop, optG hg, ht, h1, h2, hv, h4]
                rw [hred]
                exact ⟨err_conj hne, fun l s' h => (err_ne_ok h).elim⟩
              | ok s4 =>
                have hts4 : s4.tokens = s.tokens := by
                  rw [(eat_ok_facts h4).1, hts3]
                have hE4 : EndsEOF s4.tokens := by rw [hts4]; exact hE
                have hp4 : s4.pos < s4.tokens.length :=
                  eat_ok_lt hE3 hp3 (by intro hh; cases hh) h4
                have hred : dict_loop (f + 1) m s =
                    dict_loop f (insertPy m t.value v0) s4 := by
                  simp [dict_loop, optG hg, ht, h1, h2, hv, h4]
                rw [hred]
                obtain ⟨hne', hok'⟩ := ihdl (insertPy m t.value v0) s4 hE4 hp4
                refine ⟨hne', ?_⟩
                intro l s' h
                obtain ⟨a, b⟩ := hok' l s' h
                exact ⟨a.trans hts4, by rw [← hts4]; exact b⟩
      · have hred : dict_loop (f + 1) m s = .ok (m, s) := by
          simp [dict_loop, optG hg, ht]
        rw [hred]
        exact ok_conj rfl hp
    have hC : ∀ s : PState, EndsEOF s.tokens → s.pos < s.tokens.length →
        parse_const_def (f + 1) s ≠ .error .oob ∧
        ∀ s', parse_const_def (f + 1) s = .ok s' →
          s'.tokens = s.tokens ∧ s'.pos < s.tokens.length := by
      intro s hE hp
      cases h1 : eat .LPAREN s with
      | error e =>
        have hne := eat_err_not_oob hE hp h1
        have hred : parse_const_def (f + 1) s = .error e := by
          simp [parse_const_def, h1]
        rw [hred]
        exact ⟨err_conj hne, fun s' h => (err_ne_ok h).elim⟩
      | ok s1 =>
        have hts1 : s1.tokens = s.tokens := (eat_ok_facts h1).1
        have hE1 : EndsEOF s1.tokens := by rw [hts1]; exact hE
        have hp1 : s1.pos < s1.tokens.length :=
          eat_ok_lt hE hp (by intro hh; cases hh) h1
        cases h2 : eat .DEF s1 with
        | error e =>
          have hne := eat_err_not_oob hE1 hp1 h2
          have hred : parse_const_def (f + 1) s = .error e := by
            simp [parse_const_def, h1, h2]
          rw [hred]
          exact ⟨err_conj hne, fun s' h => (err_ne_ok h).elim⟩
        | ok s2 =>
          have hts2 : s2.tokens = s.tokens := by
            rw [(eat_ok_facts h2).1, hts1]
          have hE2 : EndsEOF s2.tokens := by rw [hts2]; exact hE
          have hp2 : s2.pos < s2.tokens.length :=
            eat_ok_lt hE1 hp1 (by intro hh; cases hh) h2
          obtain ⟨t2, hg2⟩ := endsEOF_get_some hE2 hp2
          by_cases ht2 : t2.type = .IDENT
          · cases h3 : eat .IDENT s2 with
            | error e =>
              have hne := eat_err_not_oob hE2 hp2 h3
              have hred : parse_const_def (f + 1) s = .error e := by
                simp [parse_const_def, h1, h2, optG hg2, ht2, h3]
              rw [hred]
              exact ⟨err_conj hne, fun s' h => (err_ne_ok h).elim⟩
            | ok s3 =>
              have hts3 : s3.tokens = s.tokens := by
                rw [(eat_ok_facts h3).1, hts2]
              have hE3 : EndsEOF s3.tokens := by rw [hts3]; exact hE
              have hp3 : s3.pos < s3.tokens.length :=
                eat_ok_lt hE2 hp2 (by intro hh; cases hh) h3
              cases hv : parse_value f s3 with
              | error e =>
                have hne : e ≠ .oob := by
                  intro he
                  subst he
                  exact (ihv s3 hE3 hp3).1 hv
                have hred : parse_const_def (f + 1) s = .error e := by
                  simp [parse_const_def, h1, h2, optG hg2, ht2, h3, hv]
                rw [hred]
                exact ⟨err_conj hne, fun s' h => (err_ne_ok h).elim⟩
              | ok p =>
                obtain ⟨v0, s4⟩ := p
                obtain ⟨hts4', hp4'⟩ := (ihv s3 hE3 hp3).2 v0 s4 hv
                have hts4 : s4.tokens = s.tokens := by rw [hts4', hts3]
                have hE4 : EndsEOF s4.tokens := by rw [hts4]; exact hE
                have hp4 : s4.pos < s4.tokens.length := by
                  rw [hts4']; exact hp4'
                cases h5 : eat .RPAREN s4 with
                | error e =>
                  have hne := eat_err_not_oob hE4 hp4 h5
                  have hred : parse_const_def (f + 1) s = .error e := by
                    simp [parse_const_def, h1, h2, optG hg2, ht2, h3, hv, h5]
                  rw [hred]
                  exact ⟨err_conj hne, fun s' h => (err_ne_ok h).elim⟩
                | ok s5 =>
                  have hts5 : s5.tokens = s.tokens := by
                    rw [(eat_ok_facts h5).1, hts4]
                  have hE5 : EndsEOF s5.tokens := by rw [hts5]; exact hE
                  have hp5 : s5.pos < s5.tokens.length :=
                    eat_ok_lt hE4 hp4 (by intro hh; cases hh) h5
                  cases h6 : eat .SEMICOLON s5 with
                  | error e =>
                    have hne := eat_err_not_oob hE5 hp5 h6
                    have hred : parse_const_def (f + 1) s = .error e := by
                      simp [parse_const_def, h1, h2, optG hg2, ht2, h3, hv,
                        h5, h6]
                    rw [hred]
                    exact ⟨err_conj hne, fun s' h => (err_ne_ok h).elim⟩
                  | ok s6 =>
                    have hts6 : s6.tokens = s.tokens := by
                      rw [(eat_ok_facts h6).1, hts5]
                    have hp6 : s6.pos < s6.tokens.length :=
                      eat_ok_lt hE5 hp5 (by intro hh; cases hh) h6
                    have hred : parse_const_def (f + 1) s =
                        .ok { s6 with consts := insertPy s6.consts t2.value v0 } := by
                      simp [parse_const_def, h1, h2, optG hg2, ht2, h3, hv,
                        h5, h6]
                    rw [hred]
                    exact ok_conjS hts6 hp6
          · have hred : parse_const_def (f + 1) s = .error .constName := by
              simp [parse_const_def, h1, h2, optG hg2, ht2]
            rw [hred]
            exact ⟨err_conj (by simp), fun s' h => (err_ne_ok h).elim⟩
    have hP : ∀ s : PState, EndsEOF s.tokens → s.pos < s.tokens.length →
        parse_program (f + 1) s ≠ .error .oob ∧
        ∀ v s', parse_program (f + 1) s = .ok (v, s') →
          s'.tokens = s.tokens ∧ s'.pos < s.tokens.length := by
      intro s hE hp
      obtain ⟨t, hg⟩ := endsEOF_get_some hE hp
      have hval : ∀ (hred0 : parse_program (f + 1) s =
          (match parse_value f s with
            | .error e => .error e
            | .ok (v, s1) => endCheck v s1)),
          parse_program (f + 1) s ≠ .error .oob ∧
          ∀ v s', parse_program (f + 1) s = .ok (v, s') →
            s'.tokens = s.tokens ∧ s'.pos < s.tokens.length := by
        intro hred0
        cases hv : parse_value f s with
        | error e =>
          have hne : e ≠ .oob := by
            intro he
            subst he
            exact (ihv s hE hp).1 hv
          have hred : parse_program (f + 1) s = .error e := by
            rw [hred0, hv]
          rw [hred]
          exact ⟨err_conj hne, fun v s' h => (err_ne_ok h).elim⟩
        | ok p =>
          obtain ⟨v0, s1⟩ := p
          obtain ⟨hts1, hp1'⟩ := (ihv s hE hp).2 v0 s1 hv
          have hE1 : EndsEOF s1.tokens := by rw [hts1]; exact hE
          have hp1 : s1.pos < s1.tokens.length := by
            rw [hts1]; exact hp1'
          have hred : parse_program (f + 1) s = endCheck v0 s1 := by
            rw [hred0, hv]
          rw [hred]
          obtain ⟨hne', hok'⟩ := endCheck_inv (v := v0) hE1 hp1
          refine ⟨hne', ?_⟩
          intro v s' h
          obtain ⟨-, hs⟩ := hok' v s' h
          rw [hs]
          exact ⟨hts1, hp1'⟩
      by_cases hlp : t.type = .LPAREN
      · obtain ⟨t2, hpk⟩ := peek_some hE 1
        by_cases hdef : t2.type = .DEF
        · cases hc : parse_const_def f s with
          | error e =>
            have hne : e ≠ .oob := by
              intro he
              subst he
              exact (ihc s hE hp).1 hc
            have hred : parse_program (f + 1) s = .error e := by
              simp [parse_program, optG hg, hlp, hpk, hdef, hc]
            rw [hred]
            exact ⟨err_conj hne, fun v s' h => (err_ne_ok h).elim⟩
          | ok s1 =>
            obtain ⟨hts1, hp1'⟩ := (ihc s hE hp).2 s1 hc
            have hE1 : EndsEOF s1.tokens := by rw [hts1]; exact hE
            have hp1 : s1.pos < s1.tokens.length := by
              rw [hts1]; exact hp1'
            have hred : parse_program (f + 1) s = parse_program f s1 := by
              simp [parse_program, optG hg, hlp, hpk, hdef, hc]
            rw [hred]
            obtain ⟨hne', hok'⟩ := ihp s1 hE1 hp1
            refine ⟨hne', ?_⟩
            intro v s' h
            obtain ⟨a, b⟩ := hok' v s' h
            exact ⟨a.trans hts1, by rw [← hts1]; exact b⟩
        · exact hval (by simp [parse_program, optG hg, hlp, hpk, hdef])
      · exact hval (by simp [parse_program, optG hg, hlp])
    exact ⟨hV, hA, hAL, hD, hDL, hC, hP⟩

/-- Whenever `parse_program` succeeds, the final cursor rests on a token
of kind `EOF` — the guard of lines 83-84 admits nothing else. -/
theorem parse_program_ok_eof :
    ∀ (f : Nat) (s : PState) (v : Value) (s' : PState),
    parse_program f s = .ok (v, s') →
    ∃ t, s'.tokens.get? s'.pos = some t ∧ t.type = .EOF := by
  intro f
  induction f with
  | zero =>
    intro s v s' h
    simp [parse_program] at h
  | succ f ih =>
    intro s v s' h
    cases hg : s.tokens.get? s.pos with
    | none =>
      rw [show parse_program (f + 1) s = .error .oob from by
        simp [parse_program, optGn hg]] at h
      cases h
    | some t =>
      by_cases hlp : t.type = .LPAREN
      · cases hpk : peek s 1 with
        | none =>
          rw [show parse_program (f + 1) s = .error .oob from by
            simp [parse_program, optG hg, hlp, hpk]] at h
          cases h
        | some t2 =>
          by_cases hdef : t2.type = .DEF
          · cases hc : parse_const_def f s with
            | error e =>
              rw [show parse_program (f + 1) s = .error e from by
                simp [parse_program, optG hg, hlp, hpk, hdef, hc]] at h
              cases h
            | ok s1 =>
              rw [show parse_program (f + 1) s = parse_program f s1 from by
                simp [parse_program, optG hg, hlp, hpk, hdef, hc]] at h
              exact ih s1 v s' h
          · cases hv : parse_value f s with
            | error e =>
              rw [show parse_program (f + 1) s = .error e from by
                simp [parse_program, optG hg, hlp, hpk, hdef, hv]] at h
              cases h
            | ok p =>
              obtain ⟨v0, s1⟩ := p
              rw [show parse_program (f + 1) s = endCheck v0 s1 from by
                simp [parse_program, optG hg, hlp, hpk, hdef, hv]] at h
              cases hg2 : s1.tokens.get? s1.pos with
              | none =>
                rw [show endCheck v0 s1 = .error .oob from by
                  simp [endCheck, optGn hg2]] at h
                cases h
              | some t3 =>
                by_cases ht3 : t3.type = .EOF
                · rw [show endCheck v0 s1 = .ok (v0, s1) from by
                    simp [endCheck, optG hg2, ht3]] at h
                  simp only [Except.ok.injEq, Prod.mk.injEq] at h
                  obtain ⟨-, hs⟩ := h
                  rw [← hs]
                  exact ⟨t3, hg2, ht3⟩
                · rw [show endCheck v0 s1 = .error (.trailing t3) from by
                    simp [endCheck, optG hg2, ht3]] at h
                  cases h
      · cases hv : parse_value f s with
        | error e =>
          rw [show parse_program (f + 1) s = .error e from by
            simp [parse_program, optG hg, hlp, hv]] at h
          cases h
        | ok p =>
          obtain ⟨v0, s1⟩ := p
          rw [show parse_program (f + 1) s = endCheck v0 s1 from by
            simp [parse_program, optG hg, hlp, hv]] at h
          cases hg2 : s1.tokens.get? s1.pos with
          | none =>
            rw [show endCheck v0 s1 = .error .oob from by
              simp [endCheck, optGn hg2]] at h
            cases h
          | some t3 =>
            by_cases ht3 : t3.type = .EOF
            · rw [show endCheck v0 s1 = .ok (v0, s1) from by
                simp [endCheck, optG hg2, ht3]] at h
              simp only [Except.ok.injEq, Prod.mk.injEq] at h
              obtain ⟨-, hs⟩ := h
              rw [← hs]
              exact ⟨t3, hg2, ht3⟩
            · rw [show endCheck v0 s1 = .error (.trailing t3) from by
                simp [endCheck, optG hg2, ht3]] at h
              cases h

/-- A successful `parse_value` began at a token that can start a value;
in particular it is never a `(`. -/
theorem parse_value_ok_shape {f : Nat} {s : PState} {v : Value} {s' : PState}
    (h : parse_value f s = .ok (v, s')) :
    ∃ tok, s.tokens.get? s.pos = some tok ∧ tok.type ≠ .LPAREN := by
  cases f with
  | zero => simp [parse_value] at h
  | succ f =>
    cases hg : s.tokens.get? s.pos with
    | none =>
      rw [show parse_value (f + 1) s = .error .oob from by
        simp [parse_value, optGn hg]] at h
      cases h
    | some tok =>
      refine ⟨tok, rfl, ?_⟩
      intro hh
      rw [show parse_value (f + 1) s = .error (.unexpectedValue tok) from by
        simp [parse_value, optG hg, hh]] at h
      cases h

/-- Specification-side value of one binary digit character. -/
def bitVal (c : Char) : Nat := if c = '1' then 1 else 0

theorem int2core_spec :
    ∀ (ds : List Char) (acc : Nat), (∀ c ∈ ds, c = '0' ∨ c = '1') →
    int2core acc ds =
      some (acc * 2 ^ ds.length + Nat.ofDigits 2 ((ds.map bitVal).reverse)) := by
  intro ds
  induction ds with
  | nil =>
    intro acc hd
    simp [int2core, Nat.ofDigits]
  | cons c rest ih =>
    intro acc hd
    have hrest : ∀ x ∈ rest, x = '0' ∨ x = '1' :=
      fun x hx => hd x (List.mem_cons_of_mem c hx)
    rcases hd c (List.mem_cons_self c rest) with hc | hc
    · subst hc
      rw [show int2core acc ('0' :: rest) = int2core (2 * acc) rest from by
        simp [int2core]]
      rw [ih (2 * acc) hrest]
      congr 1
      have hb : bitVal '0' = 0 := by simp [bitVal]
      simp only [List.map_cons, List.reverse_cons, Nat.ofDigits_append, hb,
        List.length_cons, List.length_reverse, List.length_map]
      simp [Nat.ofDigits]
      ring
    · subst hc
      rw [show int2core acc ('1' :: rest) = int2core (2 * acc + 1) rest from by
        simp [int2core]]
      rw [ih (2 * acc + 1) hrest]
      congr 1
      have hb : bitVal '1' = 1 := by simp [bitVal]
      simp only [List.map_cons, List.reverse_cons, Nat.ofDigits_append, hb,
        List.length_cons, List.length_reverse, List.length_map]
      simp [Nat.ofDigits]
      ring

/-- `parse_binary` on a well-formed binary literal: the value is the
base-2 interpretation of the digits (expressed through `Nat.ofDigits`,
least-significant digit first, hence the reverse). -/
theorem parse_binary_spec {b : Char} {ds : List Char} (hne : ds ≠ [])
    (hd : ∀ c ∈ ds, c = '0' ∨ c = '1') :
    parse_binary ('0' :: b :: ds) =
      some (Nat.ofDigits 2 ((ds.map bitVal).reverse)) := by
  cases ds with
  | nil => exact absurd rfl hne
  | cons c rest =>
    rw [show parse_binary ('0' :: b :: c :: rest) = int2core 0 (c :: rest) from by
      simp [parse_binary, int2]]
    rw [int2core_spec (c :: rest) 0 hd]
    simp

/-- Spec-side key list of a dict. -/
def keysOf (m : List (List Char × Value)) : List (List Char) :=
  m.map Prod.fst

/-- Python `k in d`. -/
def hasKey (k : List Char) : List (List Char × Value) → Bool
  | [] => false
  | (k', _) :: rest => if k' = k then true else hasKey k rest

/-- The dict built from a sequence of entries by repeated Python dict
assignment — exactly the accumulation `parse_dict` performs. -/
def fromEntries (es : List (List Char × Value)) : List (List Char × Value) :=
  es.foldl (fun m kv => insertPy m kv.1 kv.2) []

/-- Specification-side: first occurrences, in order. -/
def dedupFirst : List (List Char) → List (List Char)
  | [] => []
  | k :: rest => k :: dedupFirst (rest.filter (fun x => x ≠ k))
termination_by l => l.length
decreasing_by
  simp only [List.length_cons]
  have := List.length_filter_le (fun x => decide (x ≠ k)) rest
  omega

/-- Specification-side: the value of the last entry carrying key `k`. -/
def lastVal (k : List Char) (es : List (List Char × Value)) : Option Value :=
  es.foldl (fun r kv => if kv.1 = k then some kv.2 else r) none

theorem lookup_insertPy (m : List (List Char × Value)) (k : List Char)
    (v : Value) (q : List Char) :
    assocLookup q (insertPy m k v) =
      if q = k then some v else assocLookup q m := by
  induction m with
  | nil =>
    simp only [insertPy, assocLookup]
    by_cases hq : q = k
    · rw [if_pos hq.symm, if_pos hq]
    · rw [if_neg (fun hh => hq hh.symm), if_neg hq]
  | cons kv rest ih =>
    obtain ⟨k0, v0⟩ := kv
    simp only [insertPy]
    by_cases h0 : k0 = k
    · rw [if_pos h0]
      simp only [assocLookup]
      by_cases hq : k0 = q
      · rw [if_pos hq, if_pos (hq.symm.trans h0)]
      · rw [if_neg hq, if_neg (fun hh => hq (h0.trans hh.symm))]
        rw [if_neg hq]
    · rw [if_neg h0]
      simp only [assocLookup]
      rw [ih]
      by_cases hq : k0 = q
      · rw [if_pos hq, if_neg (fun hh => h0 (hq.trans hh)), if_pos hq]
      · rw [if_neg hq]
        by_cases hqk : q = k
        · rw [if_pos hqk, if_pos hqk]
        · rw [if_neg hqk, if_neg hqk, if_neg hq]

theorem hasKey_iff (m : List (List Char × Value)) (k : List Char) :
    hasKey k m = true ↔ k ∈ keysOf m := by
  induction m with
  | nil => simp [hasKey, keysOf]
  | cons kv rest ih =>
    obtain ⟨k0, v0⟩ := kv
    simp only [hasKey, keysOf, List.map_cons, List.mem_cons]
    by_cases h0 : k0 = k
    · rw [if_pos h0]
      subst h0
      exact ⟨fun _ => Or.inl rfl, fun _ => rfl⟩
    · rw [if_neg h0]
      constructor
      · intro hk
        exact .inr ((ih.mp hk))
      · intro hk
        rcases hk with hk | hk
        · exact absurd hk.symm h0
        · exact ih.mpr hk

theorem keysOf_insertPy (m : List (List Char × Value)) (k : List Char)
    (v : Value) :
    keysOf (insertPy m k v) =
      if hasKey k m then keysOf m else keysOf m ++ [k] := by
  induction m with
  | nil => simp [insertPy, keysOf, hasKey]
  | cons kv rest ih =>
    obtain ⟨k0, v0⟩ := kv
    by_cases h0 : k0 = k
    · have hhk : hasKey k ((k0, v0) :: rest) = true := by simp [hasKey, h0]
      rw [if_pos hhk]
      simp only [insertPy, if_pos h0, keysOf, List.map_cons]
    · have hhk : hasKey k ((k0, v0) :: rest) = hasKey k rest := by
        simp [hasKey, h0]
      rw [hhk]
      simp only [insertPy, if_neg h0, keysOf, List.map_cons]
      rw [show (insertPy rest k v).map Prod.fst = keysOf (insertPy rest k v)
        from rfl, ih]
      by_cases hk : hasKey k rest = true
      · rw [if_pos hk, if_pos hk]
        rfl
      · rw [if_neg hk, if_neg hk]
        rfl

theorem filter_filter' {α : Type} (p q : α → Bool) (l : List α) :
    (l.filter p).filter q = l.filter (fun a => p a && q a) := by
  induction l with
  | nil => rfl
  | cons a as ih =>
    by_cases hp : p a = true
    · by_cases hq : q a = true
      · simp [List.filter_cons, hp, hq, ih]
      · simp [List.filter_cons, hp, hq, ih]
    · simp [List.filter_cons, hp, ih]

theorem keys_fold :
    ∀ (es : List (List Char × Value)) (m : List (List Char × Value)),
    keysOf (es.foldl (fun acc kv => insertPy acc kv.1 kv.2) m) =
    (es.map Prod.fst).foldl
      (fun ks k => if k ∈ ks then ks else ks ++ [k]) (keysOf m) := by
  intro es
  induction es with
  | nil => intro m; rfl
  | cons kv rest ih =>
    obtain ⟨k, v⟩ := kv
    intro m
    simp only [List.foldl_cons, List.map_cons]
    rw [ih (insertPy m k v), keysOf_insertPy]
    by_cases hk : hasKey k m = true
    · rw [if_pos hk, if_pos ((hasKey_iff m k).mp hk)]
    · rw [if_neg hk, if_neg (fun hmem => hk ((hasKey_iff m k).mpr hmem))]

theorem keyfold_dedup :
    ∀ (l ks : List (List Char)),
    l.foldl (fun ks k => if k ∈ ks then ks else ks ++ [k]) ks =
    ks ++ dedupFirst (l.filter (fun x => decide (x ∉ ks))) := by
  intro l
  induction l with
  | nil => intro ks; simp [dedupFirst]
  | cons k rest ih =>
    intro ks
    simp only [List.foldl_cons, List.filter_cons]
    by_cases hk : k ∈ ks
    · have hd : ¬(decide (k ∉ ks) = true) := by simp [hk]
      rw [if_pos hk, if_neg hd, ih]
    · have hd : decide (k ∉ ks) = true := by simp [hk]
      rw [if_neg hk, if_pos hd, ih (ks ++ [k])]
      rw [show dedupFirst (k :: rest.filter (fun x => decide (x ∉ ks))) =
        k :: dedupFirst ((rest.filter (fun x => decide (x ∉ ks))).filter
          (fun x => x ≠ k)) from by rw [dedupFirst]]
      rw [List.append_assoc, List.singleton_append]
      congr 2
      rw [filter_filter']
      refine congrArg dedupFirst (List.filter_congr ?_)
      intro x hx
      by_cases h1 : x ∈ ks <;> by_cases h2 : x = k <;> simp [h1, h2]

/-- The keys of a dict built by repeated Python assignment are the entry
keys in declaration order, first occurrence kept. -/
theorem fromEntries_keys (es : List (List Char × Value)) :
    keysOf (fromEntries es) = dedupFirst (es.map Prod.fst) := by
  rw [show fromEntries es =
    es.foldl (fun acc kv => insertPy acc kv.1 kv.2) [] from rfl]
  rw [keys_fold es [], keyfold_dedup]
  rw [show keysOf [] = [] from rfl, List.nil_append]
  congr 1
  refine List.filter_eq_self.mpr ?_
  intro a ha
  simp

theorem lookup_fold :
    ∀ (es : List (List Char × Value)) (m : List (List Char × Value))
      (k : List Char),
    assocLookup k (es.foldl (fun acc kv => insertPy acc kv.1 kv.2) m) =
    es.foldl (fun r kv => if kv.1 = k then some kv.2 else r)
      (assocLookup k m) := by
  intro es
  induction es with
  | nil => intro m k; rfl
  | cons kv rest ih =>
    obtain ⟨k0, v0⟩ := kv
    intro m k
    simp only [List.foldl_cons]
    rw [ih (insertPy m k0 v0) k, lookup_insertPy]
    congr 1
    by_cases h : k = k0
    · rw [if_pos h, if_pos h.symm]
    · rw [if_neg h, if_neg (fun hh => h hh.symm)]

/-- The value under each key of a dict built by repeated Python
assignment is the value of the last entry with that key. -/
theorem fromEntries_lookup (es : List (List Char × Value)) (k : List Char) :
    assocLookup k (fromEntries es) = lastVal k es := by
  rw [show fromEntries es =
    es.foldl (fun acc kv => insertPy acc kv.1 kv.2) [] from rfl]
  rw [lookup_fold es [] k]
  rfl

theorem takeWhile_all {p : Char → Bool} {l : List Char}
    (h : ∀ x ∈ l, p x = true) : l.takeWhile p = l := by
  induction l with
  | nil => rfl
  | cons a as ih =>
    rw [List.takeWhile_cons, if_pos (h a (List.mem_cons_self a as))]
    rw [ih (fun x hx => h x (List.mem_cons_of_mem a hx))]

theorem dropWhile_all {p : Char → Bool} {l : List Char}
    (h : ∀ x ∈ l, p x = true) : l.dropWhile p = [] := by
  induction l with
  | nil => rfl
  | cons a as ih =>
    rw [List.dropWhile_cons_of_pos (h a (List.mem_cons_self a as))]
    exact ih (fun x hx => h x (List.mem_cons_of_mem a hx))

theorem takeWhile_append_all {p : Char → Bool} {t : List Char} {u0 : Char}
    {us : List Char} (ht : ∀ x ∈ t, p x = true) (hu : p u0 = false) :
    (t ++ u0 :: us).takeWhile p = t := by
  induction t with
  | nil =>
    simp only [List.nil_append, List.takeWhile_cons]
    rw [hu]
    rfl
  | cons a as ih =>
    simp only [List.cons_append, List.takeWhile_cons,
      if_pos (ht a (List.mem_cons_self a as))]
    rw [ih (fun x hx => ht x (List.mem_cons_of_mem a hx))]

theorem dropWhile_append_all {p : Char → Bool} {t : List Char} {u0 : Char}
    {us : List Char} (ht : ∀ x ∈ t, p x = true) (hu : p u0 = false) :
    (t ++ u0 :: us).dropWhile p = u0 :: us := by
  induction t with
  | nil =>
    simp only [List.nil_append]
    rw [List.dropWhile_cons_of_neg (by rw [hu]; exact Bool.false_ne_true)]
  | cons a as ih =>
    simp only [List.cons_append]
    rw [List.dropWhile_cons_of_pos (ht a (List.mem_cons_self a as))]
    exact ih (fun x hx => ht x (List.mem_cons_of_mem a hx))

theorem dropLast_concat' {α : Type} (l : List α) (a : α) :
    (l ++ [a]).dropLast = l := by
  induction l with
  | nil => rfl
  | cons b bs ih =>
    cases hbs : bs ++ [a] with
    | nil => exact absurd hbs (by simp)
    | cons x xs =>
      simp only [List.cons_append, hbs, List.dropLast_cons₂]
      rw [← hbs, ih]

/-- An identifier-start character is not whitespace and not any of the
punctuation characters that begin the other token rules. -/
theorem identStart_props {c : Char} (h : isIdentStart c = true) :
    isPySpace c = false ∧ c ≠ '@' ∧ c ≠ '{' ∧ c ≠ '}' ∧ c ≠ '(' ∧ c ≠ ')' ∧
    c ≠ ',' ∧ c ≠ '=' ∧ c ≠ ';' ∧ c ≠ '$' ∧ c ≠ '[' ∧ c ≠ '0' := by
  refine ⟨?_, ?_, ?_, ?_, ?_, ?_, ?_, ?_, ?_, ?_, ?_, ?_⟩
  · by_contra hsp
    simp only [Bool.not_eq_false] at hsp
    have hne : c = ' ' ∨ c = '\t' ∨ c = '\n' ∨ c = '\r' ∨
        c = '\x0b' ∨ c = '\x0c' := by
      simpa [isPySpace, Bool.or_eq_true, decide_eq_true_eq, or_assoc]
        using hsp
    rcases hne with rfl | rfl | rfl | rfl | rfl | rfl <;> revert h <;> decide
  all_goals intro he
  all_goals subst he
  all_goals revert h
  all_goals decide

theorem matchWS_ne {c : Char} {rest : List Char} (h : isPySpace c = false) :
    matchWS (c :: rest) = none := by
  simp [matchWS, List.takeWhile_cons, h]

theorem matchLit_cons_ne {k : TokKind} {a : Char} {lit : List Char}
    {c : Char} {rest : List Char} (h : a ≠ c) :
    matchLit k (a :: lit) (c :: rest) = none := by
  have hpre : (a :: lit).isPrefixOf (c :: rest) = false := by
    simp [List.isPrefixOf, h]
  simp [matchLit, hpre]

theorem matchKw_nomatch {k : TokKind} {kw : List Char}
    {prev : Option Char} {cs : List Char} (h : kw.isPrefixOf cs = false) :
    matchKw k kw prev cs = none := by
  simp [matchKw, h]

theorem matchKw_cons_ne {k : TokKind} {a : Char} {kw : List Char}
    {prev : Option Char} {c : Char} {rest : List Char} (h : a ≠ c) :
    matchKw k (a :: kw) prev (c :: rest) = none := by
  have hpre : (a :: kw).isPrefixOf (c :: rest) = false := by
    simp [List.isPrefixOf, h]
  simp [matchKw, hpre]

theorem matchConstref_ne {c : Char} {rest : List Char} (h : c ≠ '$') :
    matchConstref (c :: rest) = none := by
  cases rest with
  | nil => rfl
  | cons d r2 => simp [matchConstref, h]

theorem matchString_ne {c : Char} {rest : List Char} (h : c ≠ '[') :
    matchString (c :: rest) = none := by
  cases rest with
  | nil => rfl
  | cons d r2 => simp [matchString, h]

theorem matchNumber_ne {c : Char} {rest : List Char} (h : c ≠ '0') :
    matchNumber (c :: rest) = none := by
  cases rest with
  | nil => rfl
  | cons d r2 => simp [matchNumber, h]

theorem tryOr_none (b : Option (TokKind × List Char × List Char)) :
    tryOr none b = b := rfl

theorem tryOr_some_eq (r : TokKind × List Char × List Char)
    (b : Option (TokKind × List Char × List Char)) :
    tryOr (some r) b = some r := rfl

/-- Classification of a whole identifier-shaped word: the keywords
`array` and `def` win over the generic identifier rule. -/
def identKind (cs : List Char) : TokKind :=
  if cs = kwArray then .ARRAY else if cs = kwDef then .DEF else .IDENT

theorem identKind_ne_ws (cs : List Char) : identKind cs ≠ TokKind.WS := by
  unfold identKind
  by_cases h1 : cs = kwArray
  · rw [if_pos h1]
    simp
  · rw [if_neg h1]
    by_cases h2 : cs = kwDef
    · rw [if_pos h2]
      simp
    · rw [if_neg h2]
      simp

/-- `TOKEN_RE` on a word made of an identifier-start character followed by
word characters: the whole word is matched, as the `array`/`def` keyword
when it is exactly one of them (their trailing `\b` holds only then), and
as a single identifier otherwise. -/
theorem tokenMatch_ident {c : Char} {rest : List Char}
    (hc : isIdentStart c = true) (hr : ∀ x ∈ rest, isWordChar x = true) :
    tokenMatch none (c :: rest) =
      some (identKind (c :: rest), c :: rest, []) := by
  obtain ⟨hsp, hat, hlb, hrb, hlp, hrp, hcm, heqs, hsc, hdol, hlsq, h0⟩ :=
    identStart_props hc
  have h1 := @matchWS_ne c rest hsp
  have h2 := @matchLit_cons_ne .DICT_START '@' ['{'] c rest (Ne.symm hat)
  have h3 := @matchLit_cons_ne .LBRACE '{' [] c rest (Ne.symm hlb)
  have h4 := @matchLit_cons_ne .RBRACE '}' [] c rest (Ne.symm hrb)
  have h5 := @matchLit_cons_ne .LPAREN '(' [] c rest (Ne.symm hlp)
  have h6 := @matchLit_cons_ne .RPAREN ')' [] c rest (Ne.symm hrp)
  have h7 := @matchLit_cons_ne .COMMA ',' [] c rest (Ne.symm hcm)
  have h8 := @matchLit_cons_ne .EQUAL '=' [] c rest (Ne.symm heqs)
  have h9 := @matchLit_cons_ne .SEMICOLON ';' [] c rest (Ne.symm hsc)
  have hcr := @matchConstref_ne c rest hdol
  have hst := @matchString_ne c rest hlsq
  have hnum := @matchNumber_ne c rest h0
  have hident : matchIdent (c :: rest) =
      some (.IDENT, c :: rest, []) := by
    simp [matchIdent, hc, takeWhile_all hr, dropWhile_all hr]
  by_cases hpa : kwArray.isPrefixOf (c :: rest) = true
  · obtain ⟨tl, htl⟩ := List.isPrefixOf_iff_prefix.mp hpa
    cases tl with
    | nil =>
      have hcs : c :: rest = kwArray := by rw [← htl]; simp
      rw [hcs]
      decide
    | cons d tl' =>
      simp only [kwArray, List.cons_append, List.nil_append,
        List.cons.injEq] at htl
      obtain ⟨hca, hrest⟩ := htl
      have hdrest : d ∈ rest := by rw [← hrest]; simp
      have hd := hr d hdrest
      have hdrop : (c :: rest).drop 5 = d :: tl' := by
        rw [← hca, ← hrest]
        rfl
      have hko : matchKw .ARRAY kwArray none (c :: rest) = none := by
        have hlen5 : kwArray.length = 5 := rfl
        simp [matchKw, hlen5, hdrop, afterOk, hd]
      have hkd : matchKw .DEF kwDef none (c :: rest) = none := by
        refine matchKw_cons_ne ?_
        rw [← hca]
        decide
      unfold tokenMatch
      rw [h1, tryOr_none, h2, tryOr_none, h3, tryOr_none, h4, tryOr_none,
        h5, tryOr_none, h6, tryOr_none, h7, tryOr_none, h8, tryOr_none,
        h9, tryOr_none, hko, tryOr_none, hkd, tryOr_none, hcr, tryOr_none,
        hst, tryOr_none, hnum, tryOr_none, hident]
      have hne1 : c :: rest ≠ kwArray := by
        intro he
        rw [← hrest] at he
        have hlen := congrArg List.length he
        rw [← hca] at hlen
        simp [kwArray] at hlen
      have hne2 : c :: rest ≠ kwDef := by
        intro he
        rw [show kwDef = 'd' :: 'e' :: 'f' :: [] from rfl] at he
        injection he with hcc hrr
        rw [← hca] at hcc
        exact absurd hcc (by decide)
      simp [identKind, hne1, hne2]
  · have hpf : kwArray.isPrefixOf (c :: rest) = false := by
      cases hb : kwArray.isPrefixOf (c :: rest)
      · rfl
      · exact absurd hb hpa
    have hka := @matchKw_nomatch .ARRAY kwArray none (c :: rest) hpf
    by_cases hpd : kwDef.isPrefixOf (c :: rest) = true
    · obtain ⟨tl, htl⟩ := List.isPrefixOf_iff_prefix.mp hpd
      cases tl with
      | nil =>
        have hcs : c :: rest = kwDef := by rw [← htl]; simp
        rw [hcs]
        decide
      | cons d tl' =>
        simp only [kwDef, List.cons_append, List.nil_append,
          List.cons.injEq] at htl
        obtain ⟨hcd, hrest⟩ := htl
        have hdrest : d ∈ rest := by rw [← hrest]; simp
        have hd := hr d hdrest
        have hdrop : (c :: rest).drop 3 = d :: tl' := by
          rw [← hcd, ← hrest]
          rfl
        have hkd : matchKw .DEF kwDef none (c :: rest) = none := by
          have hlen3 : kwDef.length = 3 := rfl
          simp [matchKw, hlen3, hdrop, afterOk, hd]
        unfold tokenMatch
        rw [h1, tryOr_none, h2, tryOr_none, h3, tryOr_none, h4, tryOr_none,
          h5, tryOr_none, h6, tryOr_none, h7, tryOr_none, h8, tryOr_none,
          h9, tryOr_none, hka, tryOr_none, hkd, tryOr_none, hcr, tryOr_none,
          hst, tryOr_none, hnum, tryOr_none, hident]
        have hne1 : c :: rest ≠ kwArray := by
          intro he
          rw [he] at hpa
          exact hpa (by decide)
        have hne2 : c :: rest ≠ kwDef := by
          intro he
          rw [← hrest] at he
          have hlen := congrArg List.length he
          rw [← hcd] at hlen
          simp [kwDef] at hlen
        simp [identKind, hne1, hne2]
    · have hpfd : kwDef.isPrefixOf (c :: rest) = false := by
        cases hb : kwDef.isPrefixOf (c :: rest)
        · rfl
        · exact absurd hb hpd
      have hkd := @matchKw_nomatch .DEF kwDef none (c :: rest) hpfd
      unfold tokenMatch
      rw [h1, tryOr_none, h2, tryOr_none, h3, tryOr_none, h4, tryOr_none,
        h5, tryOr_none, h6, tryOr_none, h7, tryOr_none, h8, tryOr_none,
        h9, tryOr_none, hka, tryOr_none, hkd, tryOr_none, hcr, tryOr_none,
        hst, tryOr_none, hnum, tryOr_none, hident]
      have hne1 : c :: rest ≠ kwArray := by
        intro he
        rw [he] at hpa
        exact hpa (by decide)
      have hne2 : c :: rest ≠ kwDef := by
        intro he
        rw [he] at hpd
        exact hpd (by decide)
      simp [identKind, hne1, hne2]

/-- Tokenizing a whole identifier-shaped word: one token covering the
entire input, classified as a keyword exactly when the word is `array` or
`def`, followed by the `EOF` token. -/
theorem tokenize_ident {c : Char} {rest : List Char}
    (hc : isIdentStart c = true) (hr : ∀ x ∈ rest, isWordChar x = true) :
    tokenize (c :: rest) =
      .ok [⟨identKind (c :: rest), c :: rest⟩, eofToken] := by
  have hm := tokenMatch_ident hc hr
  have hkw := identKind_ne_ws (c :: rest)
  simp [tokenize, tokenizeAux, hm, hkw]

theorem tokenizeAux_single {prev : Option Char} {c : Char}
    {r0 m : List Char} {k : TokKind} {f off : Nat}
    (hm : tokenMatch prev (c :: r0) = some (k, m, [])) (hk : k ≠ .WS) :
    tokenizeAux (f + 1) prev (c :: r0) off = .ok [⟨k, m⟩] := by
  simp [tokenizeAux, hm, hk]

/-- `TOKEN_RE` on a string literal whose body has no `]`: the `STRING`
alternative matches the whole literal. -/
theorem tokenMatch_string {t : List Char} (ht : ∀ x ∈ t, x ≠ ']') :
    tokenMatch none ('[' :: '[' :: (t ++ [']', ']'])) =
      some (.STRING, '[' :: '[' :: (t ++ [']', ']']), []) := by
  have htb : ∀ x ∈ t, isStrBody x = true := by
    intro x hx
    simp [isStrBody, ht x hx]
  have hdw : (t ++ [']', ']']).dropWhile isStrBody = [']', ']'] :=
    dropWhile_append_all htb (by decide)
  have htw : (t ++ [']', ']']).takeWhile isStrBody = t :=
    takeWhile_append_all htb (by decide)
  have hms : matchString ('[' :: '[' :: (t ++ [']', ']'])) =
      some (.STRING, '[' :: '[' :: (t ++ [']', ']']), []) := by
    simp [matchString, hdw, htw]
  unfold tokenMatch
  simp only [kwArray, kwDef]
  rw [matchWS_ne (by decide), tryOr_none,
    matchLit_cons_ne (by decide), tryOr_none,
    matchLit_cons_ne (by decide), tryOr_none,
    matchLit_cons_ne (by decide), tryOr_none,
    matchLit_cons_ne (by decide), tryOr_none,
    matchLit_cons_ne (by decide), tryOr_none,
    matchLit_cons_ne (by decide), tryOr_none,
    matchLit_cons_ne (by decide), tryOr_none,
    matchLit_cons_ne (by decide), tryOr_none,
    matchKw_cons_ne (by decide), tryOr_none,
    matchKw_cons_ne (by decide), tryOr_none,
    matchConstref_ne (by decide), tryOr_none,
    hms, tryOr_some_eq]

/-- Tokenizing a string literal `[[t]]` whose body has no `]`. -/
theorem tokenize_string {t : List Char} (ht : ∀ x ∈ t, x ≠ ']') :
    tokenize ('[' :: '[' :: (t ++ [']', ']'])) =
      .ok [⟨.STRING, '[' :: '[' :: (t ++ [']', ']'])⟩, eofToken] := by
  have hm := tokenMatch_string ht
  have hlen : ('[' :: '[' :: (t ++ [']', ']'])).length = (t.length + 3) + 1 := by
    simp only [List.length_cons, List.length_append, List.length_nil]
  unfold tokenize
  rw [hlen, tokenizeAux_single hm (by intro hh; cases hh)]
  rfl

/-- Translating a string literal `[[t]]` with no `]` in the body yields
exactly the body, verbatim. -/
theorem translate_string {t : List Char} (ht : ∀ x ∈ t, x ≠ ']') :
    translate ('[' :: '[' :: (t ++ [']', ']'])) = .ok (.str t) := by
  have hstrip : ((('[' :: '[' :: (t ++ [']', ']'])).drop 2).dropLast).dropLast
      = t := by
    rw [show ('[' :: '[' :: (t ++ [']', ']'])).drop 2 = t ++ [']', ']']
      from rfl]
    rw [show (t ++ [']', ']']) = (t ++ [']']) ++ [']'] from by
      rw [List.append_assoc]; rfl]
    rw [dropLast_concat', dropLast_concat']
  unfold translate
  rw [tokenize_string ht]
  conv_rhs => rw [← hstrip]
  rfl

/-- Tokenizing pure whitespace (or the empty string) yields only `EOF`. -/
theorem tokenize_ws {cs : List Char} (h : ∀ x ∈ cs, isPySpace x = true) :
    tokenize cs = .ok [eofToken] := by
  cases cs with
  | nil => rfl
  | cons c rest =>
    have htw := takeWhile_all h
    have hdw := dropWhile_all h
    have hm : tokenMatch none (c :: rest) = some (.WS, c :: rest, []) := by
      unfold tokenMatch
      rw [show matchWS (c :: rest) = some (.WS, c :: rest, []) from by
        simp [matchWS, htw, hdw], tryOr_some_eq]
    simp [tokenize, tokenizeAux, hm]

/-- Translating pure whitespace (or the empty string) fails: the only
token is `EOF`, which cannot start a value. -/
theorem translate_ws {cs : List Char} (h : ∀ x ∈ cs, isPySpace x = true) :
    translate cs = .error (.unexpectedValue eofToken) := by
  unfold translate
  rw [tokenize_ws h]
  rfl

theorem endCheck_trailing {v : Value} {s : PState} {t : Token}
    (hg : s.tokens.get? s.pos = some t) (ht : t.type ≠ .EOF) :
    endCheck v s = .error (.trailing t) := by
  simp [endCheck, optG hg, ht]

/-- When the root value parses, `parse_program` proceeds to the
end-of-input check of lines 83-84. -/
theorem parse_program_step_value {f : Nat} {s : PState} {v : Value}
    {s2 : PState} (hv : parse_value f s = .ok (v, s2)) :
    parse_program (f + 1) s = endCheck v s2 := by
  obtain ⟨tok, hg, hnl⟩ := parse_value_ok_shape hv
  simp [parse_program, optG hg, hnl, hv]

/-- `parse_value` on a constant reference `$nm$`: the name is resolved
against the table built so far, succeeding exactly when it is present and
failing with the unknown-constant error naming it otherwise. -/
theorem parse_value_constref {f : Nat} {s : PState} {nm : List Char}
    (hg : s.tokens.get? s.pos = some ⟨.CONSTREF, '$' :: (nm ++ ['$'])⟩) :
    parse_value (f + 1) s =
      (match assocLookup nm s.consts with
        | some v => .ok (v, { s with pos := s.pos + 1 })
        | none => .error (.unknownConst nm)) := by
  have heat : eat .CONSTREF s = .ok { s with pos := s.pos + 1 } := by
    simp [eat, optG hg]
  cases hlk : assocLookup nm s.consts with
  | some v => simp [parse_value, optG hg, heat, dropLast_concat', hlk]
  | none => simp [parse_value, optG hg, heat, dropLast_concat', hlk]

/-- Claim C1, as stated, is false: the `STRING` rule is
`\[\[[^\]]*\]\]`, whose body class `[^\]]` excludes every `]`, not only
`]]` pairs.  The body `a]b` contains no occurrence of `]]`, yet the
literal `[[a]b]]` does not lex — no rule matches at offset 0, so
tokenizing (and hence translation) fails with a lex error on `[`. -/
theorem C1_counterexample :
    ¬ ([']', ']'] <:+: (['a', ']', 'b'] : List Char)) ∧
    tokenize ['[', '[', 'a', ']', 'b', ']', ']'] = .error (.lex '[' 0) ∧
    translate ['[', '[', 'a', ']', 'b', ']', ']'] = .error (.lex '[' 0) := by
  refine ⟨by decide, by rfl, by rfl⟩

/-- Claim C1, amended: for every string literal `[[t]]` whose body `t`
contains no `]` character at all (the regex class `[^\]]*` admits
nothing less), tokenizing succeeds with a single `STRING` token and
translating it as a value returns exactly `t` — the two leading and two
trailing brackets stripped, the interior verbatim, no escape
processing. -/
theorem C1_string_literal (t : List Char) (ht : ∀ x ∈ t, x ≠ ']') :
    tokenize ('[' :: '[' :: (t ++ [']', ']'])) =
      .ok [⟨.STRING, '[' :: '[' :: (t ++ [']', ']'])⟩, eofToken] ∧
    translate ('[' :: '[' :: (t ++ [']', ']'])) = .ok (.str t) :=
  ⟨tokenize_string ht, translate_string ht⟩

theorem C1_witness :
    tokenize ('[' :: '[' :: (['a', 'b'] ++ [']', ']'])) =
      .ok [⟨.STRING, '[' :: '[' :: (['a', 'b'] ++ [']', ']'])⟩, eofToken] ∧
    translate ('[' :: '[' :: (['a', 'b'] ++ [']', ']'])) =
      .ok (.str ['a', 'b']) :=
  C1_string_literal ['a', 'b'] (by decide)

/-- Claim C2: a constant reference `$nm$` resolves against the constant
table built so far — exactly the constants whose definitions were parsed
strictly earlier — returning the bound value when present and failing
with the unknown-constant error naming `nm` when absent.  In particular
(second conjunct) a reference to a constant defined only later in the
file fails: in `(def a $b$); (def b 0b1); $a$` the reference `$b$` is
resolved while the table is still empty. -/
theorem C2_constref_resolution :
    (∀ (f : Nat) (s : PState) (nm : List Char),
      s.tokens.get? s.pos = some ⟨.CONSTREF, '$' :: (nm ++ ['$'])⟩ →
      parse_value (f + 1) s =
        (match assocLookup nm s.consts with
          | some v => .ok (v, { s with pos := s.pos + 1 })
          | none => .error (.unknownConst nm))) ∧
    translate "(def a $b$); (def b 0b1); $a$".toList =
      .error (.unknownConst ['b']) := by
  refine ⟨fun f s nm hg => parse_value_constref hg, ?_⟩
  have htk : tokenize "(def a $b$); (def b 0b1); $a$".toList =
      .ok [⟨.LPAREN, ['(']⟩, ⟨.DEF, "def".toList⟩, ⟨.IDENT, ['a']⟩,
        ⟨.CONSTREF, "$b$".toList⟩, ⟨.RPAREN, [')']⟩, ⟨.SEMICOLON, [';']⟩,
        ⟨.LPAREN, ['(']⟩, ⟨.DEF, "def".toList⟩, ⟨.IDENT, ['b']⟩,
        ⟨.NUMBER, "0b1".toList⟩, ⟨.RPAREN, [')']⟩, ⟨.SEMICOLON, [';']⟩,
        ⟨.CONSTREF, "$a$".toList⟩, eofToken] := by rfl
  unfold translate
  rw [htk]
  rfl

theorem C2_witness :
    parse_value 1 ⟨[⟨.CONSTREF, '$' :: (['x'] ++ ['$'])⟩, eofToken], 0, []⟩ =
      .error (.unknownConst ['x']) :=
  (C2_constref_resolution.1 0
    ⟨[⟨.CONSTREF, '$' :: (['x'] ++ ['$'])⟩, eofToken], 0, []⟩ ['x'] rfl).trans
    rfl

/-- Claim C3: a dict literal accumulates its entries by Python dict
assignment (`insertPy`, exactly the `result[key] = value` of
`parse_dict`).  For any entry sequence, the resulting mapping lists its
keys in declaration order (first occurrence kept) and the value under
each key is the value of the last entry carrying it (last write wins).
The second conjunct runs the whole pipeline on a dict literal with a
repeated key `a`. -/
theorem C3_dict_order_last_write :
    (∀ es : List (List Char × Value),
      keysOf (fromEntries es) = dedupFirst (es.map Prod.fst) ∧
      ∀ k, assocLookup k (fromEntries es) = lastVal k es) ∧
    translate "@\x7b a = 0b1; a = 0b10; b = 0b11; \x7d".toList =
      .ok (.dict [(['a'], .int 2), (['b'], .int 3)]) := by
  refine ⟨fun es => ⟨fromEntries_keys es, fun k => fromEntries_lookup es k⟩, ?_⟩
  have htk : tokenize "@\x7b a = 0b1; a = 0b10; b = 0b11; \x7d".toList =
      .ok [⟨.DICT_START, "@\x7b".toList⟩, ⟨.IDENT, ['a']⟩, ⟨.EQUAL, ['=']⟩,
        ⟨.NUMBER, "0b1".toList⟩, ⟨.SEMICOLON, [';']⟩, ⟨.IDENT, ['a']⟩,
        ⟨.EQUAL, ['=']⟩, ⟨.NUMBER, "0b10".toList⟩, ⟨.SEMICOLON, [';']⟩,
        ⟨.IDENT, ['b']⟩, ⟨.EQUAL, ['=']⟩, ⟨.NUMBER, "0b11".toList⟩,
        ⟨.SEMICOLON, [';']⟩, ⟨.RBRACE, ['\x7d']⟩, eofToken] := by rfl
  unfold translate
  rw [htk]
  rfl

/-- Claim C4: `parse_value` on a binary literal token `0b<digits>` or
`0B<digits>` with a nonempty string of binary digits always succeeds,
returning the integer obtained by interpreting the digits in base 2
(`Nat.ofDigits 2` over the digit values, least significant first), and
advancing the cursor past the token. -/
theorem C4_binary_literal (b : Char) (ds : List Char) (f : Nat) (s : PState)
    (hb : b = 'b' ∨ b = 'B') (hne : ds ≠ [])
    (hd : ∀ c ∈ ds, c = '0' ∨ c = '1')
    (hg : s.tokens.get? s.pos = some ⟨.NUMBER, '0' :: b :: ds⟩) :
    parse_value (f + 1) s =
      .ok (.int (Nat.ofDigits 2 ((ds.map bitVal).reverse)),
        { s with pos := s.pos + 1 }) := by
  have heat : eat .NUMBER s = .ok { s with pos := s.pos + 1 } := by
    simp [eat, optG hg]
  have hpb := parse_binary_spec (b := b) hne hd
  simp [parse_value, optG hg, heat, hpb]

theorem C4_witness :
    parse_value 1 ⟨[⟨.NUMBER, '0' :: 'b' :: ['1', '0', '1']⟩, eofToken],
      0, []⟩ =
      .ok (.int 5, ⟨[⟨.NUMBER, '0' :: 'b' :: ['1', '0', '1']⟩, eofToken],
        1, []⟩) := by
  have h := C4_binary_literal 'b' ['1', '0', '1'] 0
    ⟨[⟨.NUMBER, '0' :: 'b' :: ['1', '0', '1']⟩, eofToken], 0, []⟩
    (Or.inl rfl) (by decide) (by decide) rfl
  exact h.trans (by rfl)

/-- Claim C5: after the constant definitions and the root value, the
parser demands end of input.  First conjunct: whenever `parse_program`
returns a value, the final cursor rests on the `EOF` token — translation
never returns a value while tokens remain.  Second conjunct: if the root
value parses and the token then current is not `EOF`, `parse_program`
fails with the trailing-input error reporting that token. -/
theorem C5_trailing_input :
    (∀ (f : Nat) (s : PState) (v : Value) (s' : PState),
      parse_program f s = .ok (v, s') →
      ∃ t, s'.tokens.get? s'.pos = some t ∧ t.type = .EOF) ∧
    (∀ (f : Nat) (s : PState) (v : Value) (s2 : PState) (t : Token),
      parse_value f s = .ok (v, s2) →
      s2.tokens.get? s2.pos = some t → t.type ≠ .EOF →
      parse_program (f + 1) s = .error (.trailing t)) := by
  refine ⟨parse_program_ok_eof, ?_⟩
  intro f s v s2 t hv hg ht
  rw [parse_program_step_value hv]
  exact endCheck_trailing hg ht

theorem C5_witness :
    parse_program 2 ⟨[⟨.NUMBER, "0b1".toList⟩, ⟨.NUMBER, "0b1".toList⟩,
      eofToken], 0, []⟩ =
      .error (.trailing ⟨.NUMBER, "0b1".toList⟩) :=
  C5_trailing_input.2 1
    ⟨[⟨.NUMBER, "0b1".toList⟩, ⟨.NUMBER, "0b1".toList⟩, eofToken], 0, []⟩
    (.int 1)
    ⟨[⟨.NUMBER, "0b1".toList⟩, ⟨.NUMBER, "0b1".toList⟩, eofToken], 1, []⟩
    ⟨.NUMBER, "0b1".toList⟩ rfl rfl (by decide)

/-- Claim C6: `tokenize` is total — it is a function defined on every
finite input (termination is by construction, the scan consumes at least
one character per step) — and for every input it either returns a finite
token list with all whitespace discarded and a single synthetic `EOF`
token appended after the last real token, or fails with a lex error
carrying the character at the first position where no token rule matches
together with its offset. -/
theorem C6_tokenize_total (cs : List Char) :
    (∃ rs, tokenize cs = .ok (rs ++ [eofToken]) ∧
      ∀ t ∈ rs, t.type ≠ .WS ∧ t.type ≠ .EOF) ∨
    (∃ c i, tokenize cs = .error (.lex c i) ∧ cs.get? i = some c ∧
      tokenMatch (if i = 0 then none else cs.get? (i - 1)) (cs.drop i) =
        none) :=
  tokenize_cases cs

/-- Claim C7: lexing a whole word made of an identifier-start character
followed by word characters yields one token spanning the entire word:
the `ARRAY`/`DEF` keyword token when the word is exactly `array` or
`def` (the keyword alternatives come first in `TOKEN_RE`), and a single
`IDENT` token for any other identifier — in particular any identifier
that merely extends those words, whose trailing `\b` fails inside the
longer word. -/
theorem C7_keyword_priority (c : Char) (rest : List Char)
    (hc : isIdentStart c = true) (hr : ∀ x ∈ rest, isWordChar x = true) :
    tokenize (c :: rest) =
      .ok [⟨identKind (c :: rest), c :: rest⟩, eofToken] :=
  tokenize_ident hc hr

theorem C7_witness :
    tokenize "arrays".toList = .ok [⟨.IDENT, "arrays".toList⟩, eofToken] := by
  have h := C7_keyword_priority 'a' "rrays".toList (by decide) (by decide)
  exact h

/-- Claim C8: on any token list produced by `tokenize`, the parser's
token accesses are in bounds: `parse_program` never raises the
out-of-range error at any fuel, on success the final cursor sits exactly
on the last token (the `EOF` token is never consumed), `peek` always
returns a token (its out-of-range clamp falls back to the last token),
and `eat` advances the cursor only when the current token has the
expected kind. -/
theorem C8_parser_in_bounds (cs : List Char) (toks : List Token) (f : Nat)
    (htk : tokenize cs = .ok toks) :
    parse_program f (initState toks) ≠ .error .oob ∧
    (∀ v s', parse_program f (initState toks) = .ok (v, s') →
      s'.pos + 1 = toks.length) ∧
    (∀ s : PState, s.tokens = toks → ∀ off, ∃ t, peek s off = some t) ∧
    (∀ (k : TokKind) (s s' : PState), eat k s = .ok s' →
      s'.pos = s.pos + 1 ∧ ∃ t, s.tokens.get? s.pos = some t ∧
        t.type = k) := by
  have hE := tokenize_ok_endsEOF htk
  have hp0 : (initState toks).pos < (initState toks).tokens.length := by
    have := endsEOF_ne_nil hE
    simp only [initState]
    exact List.length_pos.mpr this
  obtain ⟨hno, hok⟩ :=
    (parser_inv f).2.2.2.2.2.2 (initState toks) hE hp0
  refine ⟨hno, ?_, ?_, ?_⟩
  · intro v s' h
    obtain ⟨hts', -⟩ := hok v s' h
    obtain ⟨t, hg, ht⟩ := parse_program_ok_eof f (initState toks) v s' h
    have hE' : EndsEOF s'.tokens := by rw [hts']; exact hE
    have hlast := endsEOF_last_eof hE' hg ht
    rw [hts'] at hlast
    exact hlast
  · intro s hs off
    have hE' : EndsEOF s.tokens := by rw [hs]; exact hE
    exact peek_some hE' off
  · intro k s s' h
    obtain ⟨-, -, hpos, t, hg, ht⟩ := eat_ok_facts h
    exact ⟨hpos, t, hg, ht⟩

theorem C8_witness :
    parse_program 5 (initState [⟨.NUMBER, "0b1".toList⟩, eofToken]) ≠
      .error .oob :=
  (C8_parser_in_bounds "0b1".toList [⟨.NUMBER, "0b1".toList⟩, eofToken]
    5 (by rfl)).1

/-- Claim C9: on an input consisting only of whitespace — including the
empty string — the token list is just the `EOF` token, and translation
fails with the unexpected-value error on `EOF` because a root value is
mandatory; `translate` never returns a value on such input. -/
theorem C9_whitespace_only (cs : List Char)
    (h : ∀ x ∈ cs, isPySpace x = true) :
    tokenize cs = .ok [eofToken] ∧
    translate cs = .error (.unexpectedValue eofToken) :=
  ⟨tokenize_ws h, translate_ws h⟩

theorem C9_witness :
    tokenize [' ', '\n'] = .ok [eofToken] ∧
    translate [' ', '\n'] = .error (.unexpectedValue eofToken) :=
  C9_whitespace_only [' ', '\n'] (by decide)

/-- Claim C10: translation is deterministic.  The pipeline is a pure
function of the input text: equal inputs give structurally equal
outcomes, each call starts from the freshly built parser state
`⟨tokens, 0, []⟩` with an empty constant table, and `translate_text`
is exactly `translate` on the character list of the text. -/
theorem C10_deterministic :
    (∀ t1 t2 : List Char, t1 = t2 → translate t1 = translate t2) ∧
    (∀ toks : List Token, initState toks = ⟨toks, 0, []⟩) ∧
    (∀ s : String, translate_text s = translate s.toList) :=
  ⟨fun _ _ h => by rw [h], fun _ => rfl, fun _ => rfl⟩

theorem C10_witness :
    translate ['0', 'b', '1'] = translate ['0', 'b', '1'] :=
  C10_deterministic.1 ['0', 'b', '1'] ['0', 'b', '1'] rfl
